import Mathlib

/-! # SearchQueries.cpp : a TF-IDF search server

A shallow embedding of `src/SearchQueries.cpp` and theorems about it.

Modelling conventions.

* `std::string` is a list of characters (`Str`).  The order of `std::set<string>` and of
  the keys of `std::map<string, _>` is the lexicographic order of the characters.  For
  UTF-8 text the bytes and the code points agree on where the spaces are, on a leading
  `-` and on that order.
* `std::set<K>` is a strictly ascending list of keys, `std::map<K, V>` a list of
  key/value pairs with strictly ascending keys.  The operations below are written for
  such lists; `SetWF`, `MapWF` and `SearchServer.WF` state the ordering, and every
  operation is shown to preserve it.
* `double` is exact.  Term frequencies, which the code only ever builds from
  `1.0 / words.size()` by addition, are rationals.  Relevances live in an arbitrary
  linearly ordered field `R` and the natural logarithm is a parameter `ln : R → R`, so
  every theorem holds in particular for the real numbers with `Real.log`, while the
  definitions stay executable over `ℚ`.
* `std::map::at` on a missing key throws `std::out_of_range`; functions that can reach
  such a call return `Except Error _`.
* `int` is `Int`; the only arithmetic on it that can overflow is the rating sum of
  `ComputeAverageRating`, which wraps to 32 bits.
-/

namespace SearchQueries

/-! ## Strings, sets and maps -/

/-- A `std::string`. -/
abbrev Str := List Char

/-- The exception thrown by `std::map::at`. -/
inductive Error where
  | out_of_range
  deriving DecidableEq, Repr

/-- Results of fallible calls can be compared. -/
instance instDecidableEqExcept {ε α : Type} [DecidableEq ε] [DecidableEq α] :
    DecidableEq (Except ε α) := fun x y =>
  match x, y with
  | .ok a, .ok b =>
    if h : a = b then isTrue (congrArg Except.ok h)
    else isFalse (fun h2 => h (Except.ok.inj h2))
  | .error a, .error b =>
    if h : a = b then isTrue (congrArg Except.error h)
    else isFalse (fun h2 => h (Except.error.inj h2))
  | .ok _, .error _ => isFalse (fun h => Except.noConfusion h)
  | .error _, .ok _ => isFalse (fun h => Except.noConfusion h)

section Containers

variable {K : Type} {V : Type} [LinearOrder K]

/-- The call `std::set::insert`: ordered insertion without duplicates. -/
def setInsert (k : K) : List K → List K
  | [] => [k]
  | x :: xs =>
    if k < x then k :: x :: xs
    else if k = x then x :: xs
    else x :: setInsert k xs

/-- The lookup behind `std::map::find`: the value stored under `k`, if any. -/
def mapFind (k : K) : List (K × V) → Option V
  | [] => none
  | e :: es => if e.1 = k then some e.2 else mapFind k es

/-- The call `std::map::count`: 1 if the key is present, else 0. -/
def mapCount (m : List (K × V)) (k : K) : Nat :=
  if (mapFind k m).isSome then 1 else 0

/-- The call `std::map::at`: the value under `k`, or `std::out_of_range`. -/
def mapAt (m : List (K × V)) (k : K) : Except Error V :=
  match mapFind k m with
  | some v => .ok v
  | none => .error .out_of_range

/-- The statement `m[k] = f(m[k])`, where `operator[]` first inserts `dflt` when the key
is missing: the pattern of `m[k] += x`. -/
def mapModify (k : K) (dflt : V) (f : V → V) : List (K × V) → List (K × V)
  | [] => [(k, f dflt)]
  | e :: es =>
    if k < e.1 then (k, f dflt) :: e :: es
    else if k = e.1 then (e.1, f e.2) :: es
    else e :: mapModify k dflt f es

/-- The call `std::map::emplace`: inserts the pair unless the key is already present. -/
def mapEmplace (k : K) (v : V) : List (K × V) → List (K × V)
  | [] => [(k, v)]
  | e :: es =>
    if k < e.1 then (k, v) :: e :: es
    else if k = e.1 then e :: es
    else e :: mapEmplace k v es

/-- The call `std::map::erase(key)`. -/
def mapErase (k : K) (m : List (K × V)) : List (K × V) :=
  m.filter (fun e => decide (e.1 ≠ k))

/-- A list that represents a `std::set`: strictly ascending. -/
def SetWF (s : List K) : Prop := s.Pairwise (· < ·)

/-- A list that represents a `std::map`: strictly ascending keys. -/
def MapWF (m : List (K × V)) : Prop := m.Pairwise (fun a b => a.1 < b.1)

end Containers

/-! ## `std::sort` -/

section Sorting

variable {α : Type}

/-- The inner loop `__unguarded_linear_insert` of the library's insertion sort, on the
already sorted prefix stored back to front: `val` moves left past every element it
compares before. -/
def linearInsert (comp : α → α → Bool) (val : α) : List α → List α
  | [] => [val]
  | prev :: rest =>
    if comp val prev then prev :: linearInsert comp val rest
    else val :: prev :: rest

/-- One round of the insertion sort: an element that compares before the first one
goes to the front, any other is inserted by `linearInsert`.  The prefix is stored back
to front. -/
def insertionStep (comp : α → α → Bool) (revSorted : List α) (val : α) : List α :=
  match revSorted.getLast? with
  | none => [val]
  | some first =>
    if comp val first then revSorted ++ [val]
    else linearInsert comp val revSorted

/-- The call `std::sort(first, last, comp)`, modelled by the insertion sort that the
common standard libraries run on short ranges.  What the theorems below use of it is the
library contract: the result is a permutation of the input, and it is ordered by `comp`
whenever `comp` is a strict weak ordering of the elements. -/
def sort (comp : α → α → Bool) (l : List α) : List α :=
  (l.foldl (insertionStep comp) []).reverse

/-- A comparator that is asymmetric and negatively transitive on the elements that
satisfy `S`: a strict weak ordering of them. -/
structure StrictWeakOn (comp : α → α → Bool) (S : α → Prop) : Prop where
  asymm : ∀ a b, S a → S b → comp a b = true → comp b a = false
  negTrans : ∀ a b c, S a → S b → S c → comp a b = false → comp b c = false →
    comp a c = false

end Sorting

/-! ## The program -/

/-- The constant `MAX_RESULT_DOCUMENT_COUNT`. -/
def MAX_RESULT_DOCUMENT_COUNT : Nat := 5

/-- The loop of `SplitIntoWords`: `words` and `word` are the two local variables. -/
def SplitIntoWords.loop : List Char → List Str → Str → List Str × Str
  | [], words, word => (words, word)
  | c :: cs, words, word =>
    if c = ' ' then SplitIntoWords.loop cs (words ++ [word]) []
    else SplitIntoWords.loop cs words (word ++ [c])

/-- The function `SplitIntoWords`. -/
def SplitIntoWords (text : Str) : List Str :=
  let r := SplitIntoWords.loop text [] []
  r.1 ++ [r.2]

/-- The enumeration `DocumentStatus`. -/
inductive DocumentStatus where
  | ACTUAL
  | IRRELEVANT
  | BANNED
  | REMOVED
  deriving DecidableEq, Repr

/-- The struct `Document`, with relevances in `R`. -/
structure Document (R : Type) where
  id : Int
  relevance : R
  rating : Int
  deriving DecidableEq, Repr

/-- The struct `SearchServer::DocumentData`. -/
structure DocumentData where
  rating : Int
  status : DocumentStatus
  deriving DecidableEq, Repr

/-- The struct `SearchServer::QueryWord`. -/
structure QueryWord where
  data : Str
  is_minus : Bool
  is_stop : Bool
  deriving DecidableEq, Repr

/-- The struct `SearchServer::Query`. -/
structure Query where
  plus_words : List Str
  minus_words : List Str
  deriving DecidableEq, Repr

/-- The data members of the class `SearchServer`. -/
structure SearchServer where
  _document_count : Nat
  stop_words_ : List Str
  word_to_document_freqs_ : List (Str × List (Int × ℚ))
  documents_ : List (Int × DocumentData)
  deriving DecidableEq

/-- A freshly constructed `SearchServer`. -/
def SearchServer.empty : SearchServer :=
  { _document_count := 0, stop_words_ := [], word_to_document_freqs_ := [], documents_ := [] }

/-- The type of the predicate argument `key_mapper(document_id, status, rating)`. -/
abbrev KeyMapper := Int → DocumentStatus → Int → Bool

/-- The value of a 32-bit `int` computation. -/
def wrap32 (x : Int) : Int := (x + 2147483648) % 4294967296 - 2147483648

namespace SearchServer

/-- The method `SetStopWords`. -/
def SetStopWords (s : SearchServer) (text : Str) : SearchServer :=
  let stop_words := (SplitIntoWords text).foldl (fun acc word => setInsert word acc) s.stop_words_
  { s with stop_words_ := stop_words }

/-- The method `IsStopWord`. -/
def IsStopWord (s : SearchServer) (word : Str) : Bool :=
  decide (word ∈ s.stop_words_)

/-- The method `SplitIntoWordsNoStop`. -/
def SplitIntoWordsNoStop (s : SearchServer) (text : Str) : List Str :=
  (SplitIntoWords text).filter (fun word => !s.IsStopWord word)

/-- The method `ComputeAverageRating`.  The sum that `accumulate` forms in `int` wraps to
32 bits at every addition; the count `static_cast<int>(ratings.size())` is the length of
the list, which the cast leaves as it is below `2 ^ 31` elements. -/
def ComputeAverageRating (ratings : List Int) : Int :=
  if ratings.isEmpty then 0
  else
    let rating_sum := ratings.foldl (fun acc r => wrap32 (acc + r)) 0
    Int.tdiv rating_sum (ratings.length : Int)

/-- The statement `word_to_document_freqs_[word][document_id] += inv_word_count`. -/
def addWordFreq (document_id : Int) (inv_word_count : ℚ)
    (index : List (Str × List (Int × ℚ))) (word : Str) : List (Str × List (Int × ℚ)) :=
  mapModify word [] (fun posting => mapModify document_id 0 (fun x => x + inv_word_count) posting)
    index

/-- The method `AddDocument`.  When `words` is empty the quotient `1.0 / words.size()` is
never used, the loop having no round. -/
def AddDocument (s : SearchServer) (document_id : Int) (document : Str)
    (status : DocumentStatus) (ratings : List Int) : SearchServer :=
  let words := s.SplitIntoWordsNoStop document
  let inv_word_count : ℚ := 1 / (words.length : ℚ)
  let index := words.foldl
    (fun index word =>
      if document_id ≥ 0 then addWordFreq document_id inv_word_count index word else index)
    s.word_to_document_freqs_
  let data : DocumentData := { rating := ComputeAverageRating ratings, status := status }
  { _document_count := s._document_count + 1
    stop_words_ := s.stop_words_
    word_to_document_freqs_ := index
    documents_ := mapEmplace document_id data s.documents_ }

/-- The method `ParseQueryWord`.  Reading `text[0]` of an empty string yields the
terminating null character, which is not `-`. -/
def ParseQueryWord (s : SearchServer) (text : Str) : QueryWord :=
  match text with
  | '-' :: rest => { data := rest, is_minus := true, is_stop := s.IsStopWord rest }
  | _ => { data := text, is_minus := false, is_stop := s.IsStopWord text }

/-- The body of the loop of `ParseQuery`. -/
def ParseQuery.step (s : SearchServer) (query : Query) (word : Str) : Query :=
  let query_word := s.ParseQueryWord word
  if !query_word.is_stop then
    if query_word.is_minus then
      { query with minus_words := setInsert query_word.data query.minus_words }
    else
      { query with plus_words := setInsert query_word.data query.plus_words }
  else query

/-- The method `ParseQuery`. -/
def ParseQuery (s : SearchServer) (text : Str) : Query :=
  (SplitIntoWords text).foldl (ParseQuery.step s) { plus_words := [], minus_words := [] }

/-- The short-circuit conjunction `a && b` whose right operand may throw. -/
def andAlso (a : Bool) (b : Except Error Bool) : Except Error Bool :=
  if a then b else pure false

section Ranking

variable {R : Type} [LinearOrderedField R]

/-- The constant `EPSILON`. -/
def EPSILON : R := 1 / 1000000

/-- The method `ComputeWordInverseDocumentFreq`; `ln` is the function `log`. -/
def ComputeWordInverseDocumentFreq (ln : R → R) (s : SearchServer) (word : Str) :
    Except Error R := do
  let posting ← mapAt s.word_to_document_freqs_ word
  pure (ln ((s.documents_.length : R) * 1 / (posting.length : R)))

/-- The body of the first loop of `FindAllDocuments`, over the plus-words. -/
def FindAllDocuments.plusStep (ln : R → R) (s : SearchServer)
    (document_to_relevance : List (Int × R)) (word : Str) : Except Error (List (Int × R)) :=
  if mapCount s.word_to_document_freqs_ word = 0 then pure document_to_relevance
  else do
    let inverse_document_freq ← ComputeWordInverseDocumentFreq ln s word
    let posting ← mapAt s.word_to_document_freqs_ word
    pure (posting.foldl
      (fun m it => mapModify it.1 0 (fun x => x + (it.2 : R) * inverse_document_freq) m)
      document_to_relevance)

/-- The body of the second loop of `FindAllDocuments`, over the minus-words. -/
def FindAllDocuments.minusStep (s : SearchServer)
    (document_to_relevance : List (Int × R)) (word : Str) : Except Error (List (Int × R)) :=
  if mapCount s.word_to_document_freqs_ word = 0 then pure document_to_relevance
  else do
    let posting ← mapAt s.word_to_document_freqs_ word
    pure (posting.foldl (fun m it => mapErase it.1 m) document_to_relevance)

/-- The body of the third loop of `FindAllDocuments`, which emits the documents. -/
def FindAllDocuments.emitStep (s : SearchServer) (key_mapper : KeyMapper)
    (matched_documents : List (Document R)) (it : Int × R) :
    Except Error (List (Document R)) := do
  let data ← mapAt s.documents_ it.1
  if key_mapper it.1 data.status data.rating then
    pure (matched_documents ++ [{ id := it.1, relevance := it.2, rating := data.rating }])
  else pure matched_documents

/-- The method `FindAllDocuments`. -/
def FindAllDocuments (ln : R → R) (s : SearchServer) (query : Query)
    (key_mapper : KeyMapper) : Except Error (List (Document R)) := do
  let plus ← query.plus_words.foldlM (FindAllDocuments.plusStep ln s) []
  let minus ← query.minus_words.foldlM (FindAllDocuments.minusStep s) plus
  minus.foldlM (FindAllDocuments.emitStep s key_mapper) []

/-- The comparator handed to `std::sort` in `FindTopDocuments`. -/
def FindTopDocuments.comp (lhs rhs : Document R) : Bool :=
  if |lhs.relevance - rhs.relevance| < EPSILON then decide (lhs.rating > rhs.rating)
  else decide (lhs.relevance > rhs.relevance)

/-- Two documents that the comparator treats as tied on relevance. -/
def FindTopDocuments.tied (lhs rhs : Document R) : Prop :=
  |lhs.relevance - rhs.relevance| < EPSILON

instance (lhs rhs : Document R) : Decidable (FindTopDocuments.tied lhs rhs) := by
  unfold FindTopDocuments.tied
  infer_instance

/-- The statement `if (v.size() > MAX_RESULT_DOCUMENT_COUNT) v.resize(...)`. -/
def FindTopDocuments.truncate (matched_documents : List (Document R)) : List (Document R) :=
  if matched_documents.length > MAX_RESULT_DOCUMENT_COUNT then
    matched_documents.take MAX_RESULT_DOCUMENT_COUNT
  else matched_documents

/-- The method `FindTopDocuments(raw_query, key_mapper)` for a predicate `key_mapper`. -/
def FindTopDocuments (ln : R → R) (s : SearchServer) (raw_query : Str)
    (key_mapper : KeyMapper) : Except Error (List (Document R)) := do
  let query := s.ParseQuery raw_query
  let matched_documents ← FindAllDocuments ln s query key_mapper
  pure (FindTopDocuments.truncate (sort FindTopDocuments.comp matched_documents))

/-- The method `FindTopDocuments(raw_query, key_mapper)` for a `DocumentStatus`. -/
def FindTopDocumentsByStatus (ln : R → R) (s : SearchServer) (raw_query : Str)
    (key_mapper : DocumentStatus) : Except Error (List (Document R)) :=
  FindTopDocuments ln s raw_query (fun _ status _ => decide (status = key_mapper))

/-- The method `FindTopDocuments(raw_query)`. -/
def FindTopDocumentsDefault (ln : R → R) (s : SearchServer) (raw_query : Str) :
    Except Error (List (Document R)) :=
  FindTopDocuments ln s raw_query (fun _ status _ => decide (status = DocumentStatus.ACTUAL))

end Ranking

/-- The body of the first loop of `MatchDocument`, over the plus-words. -/
def MatchDocument.plusStep (s : SearchServer) (document_id : Int) (query_word : List Str)
    (word : Str) : Except Error (List Str) := do
  let present ← andAlso (decide (mapCount s.word_to_document_freqs_ word ≠ 0)) (do
    let posting ← mapAt s.word_to_document_freqs_ word
    pure (decide (mapCount posting document_id ≠ 0)))
  if present then pure (query_word ++ [word])
  else do
    let absent ← andAlso (decide (mapCount s.word_to_document_freqs_ word = 0)) (do
      let posting ← mapAt s.word_to_document_freqs_ word
      pure (decide (mapCount posting document_id = 0)))
    if absent then pure [] else pure query_word

/-- The body of the second loop of `MatchDocument`, over the minus-words. -/
def MatchDocument.minusStep (s : SearchServer) (document_id : Int) (query_word : List Str)
    (word : Str) : Except Error (List Str) := do
  let present ← andAlso (decide (mapCount s.word_to_document_freqs_ word ≠ 0)) (do
    let posting ← mapAt s.word_to_document_freqs_ word
    pure (decide (mapCount posting document_id ≠ 0)))
  if present then pure [] else pure query_word

/-- The method `MatchDocument`. -/
def MatchDocument (s : SearchServer) (raw_query : Str) (document_id : Int) :
    Except Error (List Str × DocumentStatus) := do
  let query := s.ParseQuery raw_query
  let plus ← query.plus_words.foldlM (MatchDocument.plusStep s document_id) []
  let query_word ← query.minus_words.foldlM (MatchDocument.minusStep s document_id) plus
  let data ← mapAt s.documents_ document_id
  pure (query_word, data.status)

end SearchServer

/-- The server that `main` builds: the stop words and the four documents. -/
def main_search_server : SearchServer :=
  let s0 := SearchServer.empty.SetStopWords "и в на".toList
  let s1 := s0.AddDocument 0 "белый кот и модный ошейник".toList DocumentStatus.ACTUAL [8, -3]
  let s2 := s1.AddDocument 1 "пушистый кот пушистый хвост".toList DocumentStatus.ACTUAL [7, 2, 7]
  let s3 := s2.AddDocument 2 "ухоженный пёс выразительные глаза".toList DocumentStatus.ACTUAL
    [5, -12, 2, 1]
  s3.AddDocument 3 "ухоженный скворец евгений".toList DocumentStatus.BANNED [9]

/-- The query text of `main`. -/
def main_query : Str := "пушистый ухоженный кот".toList

/-- The predicate of the last query of `main`: `document_id % 2 == 0`. -/
def main_even_ids : KeyMapper := fun document_id _ _ => decide (Int.tmod document_id 2 = 0)

/-- A query whose last token is a lone `-`. -/
def lone_minus_query : Str := "кот -".toList

/-- A query with a minus-word. -/
def exclusion_query : Str := "ухоженный -пёс".toList

/-! ## Auxiliary definitions for the statements -/

namespace SearchServer

/-- The test `word_to_document_freqs_.count(word) != 0 &&
word_to_document_freqs_.at(word).count(document_id) != 0`: the word has a posting entry
for the document. -/
def hasPosting (s : SearchServer) (word : Str) (document_id : Int) : Bool :=
  match mapFind word s.word_to_document_freqs_ with
  | some posting => (mapFind document_id posting).isSome
  | none => false

/-- The words that `MatchDocument` returns when it does not throw. -/
def matchedWords (s : SearchServer) (query : Query) (document_id : Int) : List Str :=
  if query.minus_words.any (fun w => s.hasPosting w document_id) then []
  else query.plus_words.filter (fun w => s.hasPosting w document_id)

/-- The term frequency recorded for a word and a document, 0 when there is none. -/
def tf (s : SearchServer) (word : Str) (document_id : Int) : ℚ :=
  match mapFind word s.word_to_document_freqs_ with
  | some posting => (mapFind document_id posting).getD 0
  | none => 0

/-- The posting entry of a word for a document, if there is one. -/
def postingEntry (s : SearchServer) (word : Str) (document_id : Int) : Option ℚ :=
  (mapFind word s.word_to_document_freqs_).bind (fun posting => mapFind document_id posting)

/-- The sum, over all words of the index, of the term frequency recorded for a
document. -/
def tfSum (s : SearchServer) (document_id : Int) : ℚ :=
  (s.word_to_document_freqs_.map (fun e => (mapFind document_id e.2).getD 0)).sum

/-- The document frequency of a word: the number of documents in its posting. -/
def df (s : SearchServer) (word : Str) : Nat :=
  match mapFind word s.word_to_document_freqs_ with
  | some posting => posting.length
  | none => 0

section RankingAux

variable {R : Type} [LinearOrderedField R]

/-- The term of the relevance formula for a plus-word `word` and a document: the term
frequency times the logarithm of `N` over the document frequency. -/
def relevanceTerm (ln : R → R) (N : R) (s : SearchServer) (document_id : Int) (word : Str) :
    R :=
  (s.tf word document_id : R) * ln (N / (s.df word : R))

/-- The relevance formula: the sum of the terms of the plus-words that have a posting
entry for the document, for a corpus size `N`. -/
def relevanceSum (ln : R → R) (N : R) (s : SearchServer) (query : Query)
    (document_id : Int) : R :=
  ((query.plus_words.filter (fun w => s.hasPosting w document_id)).map
    (relevanceTerm ln N s document_id)).sum

/-- The effect of `FindAllDocuments.plusStep`, which never throws. -/
def FindAllDocuments.plusPure (ln : R → R) (s : SearchServer)
    (document_to_relevance : List (Int × R)) (word : Str) : List (Int × R) :=
  match mapFind word s.word_to_document_freqs_ with
  | none => document_to_relevance
  | some posting =>
    posting.foldl
      (fun m it => mapModify it.1 0
        (fun x => x + (it.2 : R) * ln ((s.documents_.length : R) * 1 / (posting.length : R))) m)
      document_to_relevance

/-- The effect of `FindAllDocuments.minusStep`, which never throws. -/
def FindAllDocuments.minusPure (s : SearchServer)
    (document_to_relevance : List (Int × R)) (word : Str) : List (Int × R) :=
  match mapFind word s.word_to_document_freqs_ with
  | none => document_to_relevance
  | some posting => posting.foldl (fun m it => mapErase it.1 m) document_to_relevance

/-- The document that `FindAllDocuments.emitStep` appends for an entry, if any. -/
def FindAllDocuments.emitPure (s : SearchServer) (key_mapper : KeyMapper) (it : Int × R) :
    Option (Document R) :=
  match mapFind it.1 s.documents_ with
  | some data =>
    if key_mapper it.1 data.status data.rating then
      some { id := it.1, relevance := it.2, rating := data.rating }
    else none
  | none => none

/-- The map `document_to_relevance` after the two loops of `FindAllDocuments`. -/
def FindAllDocuments.candidates (ln : R → R) (s : SearchServer) (query : Query) :
    List (Int × R) :=
  query.minus_words.foldl (FindAllDocuments.minusPure s)
    (query.plus_words.foldl (FindAllDocuments.plusPure ln s) [])

/-- The predicate `key_mapper(id, status, rating)` evaluated for a returned document, the
status being the one stored for its id. -/
def passes (s : SearchServer) (key_mapper : KeyMapper) (doc : Document R) : Bool :=
  match mapFind doc.id s.documents_ with
  | some data => key_mapper doc.id data.status doc.rating
  | none => false

end RankingAux

end SearchServer

/-! ## The query parser as the specification words it -/

/-- A token that begins with `-`. -/
def beginsWithMinus (token : Str) : Bool := token.head? == some '-'

/-- The plus-words of the specification: the tokens that do not begin with `-` and are
not stop words. -/
def spec_plus_words (s : SearchServer) (text : Str) : List Str :=
  (SplitIntoWords text).filter (fun token => !beginsWithMinus token && !s.IsStopWord token)

/-- The minus-words of the specification: the tokens that begin with `-`, with exactly
one leading `-` removed, those kept whose remainder is not a stop word. -/
def spec_minus_words (s : SearchServer) (text : Str) : List Str :=
  (((SplitIntoWords text).filter beginsWithMinus).map (fun token => token.drop 1)).filter
    (fun word => !s.IsStopWord word)

/-! ## Reachable states and their invariant -/

/-- An inverted index that is a `std::map` of `std::map`s: the words are strictly
ascending, and so are the ids of every posting. -/
structure IndexWF (index : List (Str × List (Int × ℚ))) : Prop where
  wf : MapWF index
  posting_wf : ∀ e ∈ index, MapWF e.2

/-- The arguments of one call of `AddDocument`. -/
structure Ingestion where
  document_id : Int
  document : Str
  status : DocumentStatus
  ratings : List Int
  deriving DecidableEq

/-- A sequence of calls of `AddDocument`. -/
def runCalls (s : SearchServer) (calls : List Ingestion) : SearchServer :=
  calls.foldl (fun s c => s.AddDocument c.document_id c.document c.status c.ratings) s

/-- An inverted index whose postings are well-formed maps, none of them empty, over
non-negative document ids that satisfy `D`. -/
structure IndexOK (D : Int → Prop) (index : List (Str × List (Int × ℚ))) : Prop where
  wf : MapWF index
  posting_wf : ∀ e ∈ index, MapWF e.2
  posting_ne : ∀ e ∈ index, e.2 ≠ []
  posting_ids : ∀ e ∈ index, ∀ it ∈ e.2, 0 ≤ it.1 ∧ D it.1

/-- The invariant of the server: the containers are well-formed, and every document id
of a posting is non-negative and has metadata. -/
structure SearchServer.WF (s : SearchServer) : Prop where
  stop_words : SetWF s.stop_words_
  documents : MapWF s.documents_
  index : IndexOK (fun id => (mapFind id s.documents_).isSome = true) s.word_to_document_freqs_

/-- The states that a fresh server reaches by calls of `SetStopWords` and `AddDocument`. -/
inductive Reachable : SearchServer → Prop where
  | empty : Reachable SearchServer.empty
  | setStopWords (s : SearchServer) (text : Str) :
      Reachable s → Reachable (s.SetStopWords text)
  | addDocument (s : SearchServer) (document_id : Int) (document : Str)
      (status : DocumentStatus) (ratings : List Int) :
      Reachable s → Reachable (s.AddDocument document_id document status ratings)

/-! ## Inputs of the examples -/

/-- The relevance filter that accepts every document. -/
def alwaysTrue : KeyMapper := fun _ _ _ => true

/-- A stand-in for the logarithm over the rationals, for running the definitions. -/
def lnQ : ℚ → ℚ := fun x => x - 1

/-- A text of `n + 1` words: the word `w` followed by `n` times the word `x`. -/
def longText (n : Nat) : Str := 'w' :: (List.replicate n [' ', 'x']).flatten

/-- A server with three documents of 835, 834 and 833 words that each hold the word `w`
once, with ratings 3, 2 and 1, and three more documents without it. -/
def tieServer : SearchServer :=
  let s0 := SearchServer.empty.AddDocument 0 (longText 834) DocumentStatus.ACTUAL [3]
  let s1 := s0.AddDocument 1 (longText 833) DocumentStatus.ACTUAL [2]
  let s2 := s1.AddDocument 2 (longText 832) DocumentStatus.ACTUAL [1]
  let s3 := s2.AddDocument 3 ['y'] DocumentStatus.ACTUAL []
  let s4 := s3.AddDocument 4 ['y'] DocumentStatus.ACTUAL []
  s4.AddDocument 5 ['y'] DocumentStatus.ACTUAL []

/-- A server on which `AddDocument` ran twice with the same id. -/
def dupServer : SearchServer :=
  (SearchServer.empty.AddDocument 0 ['a'] DocumentStatus.ACTUAL [4]).AddDocument 0 ['a']
    DocumentStatus.ACTUAL [4]

/-- A server with six documents, ids 0 to 5, that each consist of the word `cat`; the
rating of a document is its id. -/
def sixServer : SearchServer :=
  [0, 1, 2, 3, 4, 5].foldl
    (fun s id => s.AddDocument id "cat".toList DocumentStatus.ACTUAL [id]) SearchServer.empty

/-- A server with the single document `cat` under id 0. -/
def catServer : SearchServer :=
  SearchServer.empty.AddDocument 0 "cat".toList DocumentStatus.ACTUAL [1]

/-- A server on which `AddDocument` ran twice with the same id, with different statuses
and ratings. -/
def reingestServer : SearchServer :=
  (SearchServer.empty.AddDocument 0 ['a'] DocumentStatus.ACTUAL [4]).AddDocument 0 ['a']
    DocumentStatus.BANNED [9]

/-- The four calls of `AddDocument` in `main`. -/
def main_calls : List Ingestion :=
  [⟨0, "белый кот и модный ошейник".toList, DocumentStatus.ACTUAL, [8, -3]⟩,
   ⟨1, "пушистый кот пушистый хвост".toList, DocumentStatus.ACTUAL, [7, 2, 7]⟩,
   ⟨2, "ухоженный пёс выразительные глаза".toList, DocumentStatus.ACTUAL, [5, -12, 2, 1]⟩,
   ⟨3, "ухоженный скворец евгений".toList, DocumentStatus.BANNED, [9]⟩]

/-- The ordering that the specification states for a document `a` returned before a
document `b`. -/
def specOrdered {R : Type} [LinearOrderedField R] (a b : Document R) : Prop :=
  a.relevance > b.relevance + 1 / 1000000 ∨
    (|a.relevance - b.relevance| ≤ 1 / 1000000 ∧ a.rating ≥ b.rating)

/-! ## Theorems -/

set_option linter.unusedSectionVars false

/-! ### Sets and maps -/

section ContainerLemmas

variable {K : Type} {V : Type} [LinearOrder K]

theorem mem_setInsert (a k : K) (l : List K) : a ∈ setInsert k l ↔ a = k ∨ a ∈ l := by
  induction l with
  | nil => simp [setInsert]
  | cons x xs ih =>
    unfold setInsert
    by_cases h1 : k < x
    · simp [h1]
    · by_cases h2 : k = x
      · subst h2
        simp
      · simp only [h1, h2, if_false, List.mem_cons, ih]
        tauto

theorem setInsert_wf (k : K) (l : List K) (h : SetWF l) : SetWF (setInsert k l) := by
  unfold SetWF at *
  induction l with
  | nil => simp [setInsert]
  | cons x xs ih =>
    rw [List.pairwise_cons] at h
    unfold setInsert
    by_cases h1 : k < x
    · simp only [h1, if_true, List.pairwise_cons]
      refine ⟨?_, h⟩
      intro a ha
      rw [List.mem_cons] at ha
      rcases ha with rfl | ha
      · exact h1
      · exact lt_trans h1 (h.1 a ha)
    · by_cases h2 : k = x
      · subst h2
        simp only [lt_irrefl, if_false, if_true, List.pairwise_cons]
        exact h
      · simp only [h1, h2, if_false, List.pairwise_cons]
        refine ⟨?_, ih h.2⟩
        intro a ha
        rw [mem_setInsert] at ha
        rcases ha with rfl | ha
        · exact lt_of_le_of_ne (not_lt.mp h1) (Ne.symm h2)
        · exact h.1 a ha

theorem mem_foldl_setInsert (a : K) (ws acc : List K) :
    a ∈ ws.foldl (fun acc word => setInsert word acc) acc ↔ a ∈ ws ∨ a ∈ acc := by
  induction ws generalizing acc with
  | nil => simp
  | cons w ws ih =>
    simp only [List.foldl_cons, ih, mem_setInsert, List.mem_cons]
    tauto

theorem foldl_setInsert_wf (ws acc : List K) (h : SetWF acc) :
    SetWF (ws.foldl (fun acc word => setInsert word acc) acc) := by
  induction ws generalizing acc with
  | nil => simpa using h
  | cons w ws ih => exact ih _ (setInsert_wf w acc h)

theorem mapFind_isSome_iff (k : K) (m : List (K × V)) :
    (mapFind k m).isSome = true ↔ k ∈ m.map Prod.fst := by
  induction m with
  | nil => simp [mapFind]
  | cons e es ih =>
    unfold mapFind
    by_cases h : e.1 = k
    · simp [h]
    · simp only [h, if_false, ih, List.map_cons, List.mem_cons]
      constructor
      · exact Or.inr
      · rintro (h2 | h2)
        · exact absurd h2.symm h
        · exact h2

theorem mapFind_eq_none_iff (k : K) (m : List (K × V)) :
    mapFind k m = none ↔ k ∉ m.map Prod.fst := by
  rw [← mapFind_isSome_iff]
  cases mapFind k m <;> simp

theorem mapFind_mem {k : K} {v : V} {m : List (K × V)} (h : mapFind k m = some v) :
    (k, v) ∈ m := by
  induction m with
  | nil => simp [mapFind] at h
  | cons e es ih =>
    unfold mapFind at h
    by_cases h1 : e.1 = k
    · simp only [h1, if_true, Option.some.injEq] at h
      rw [← h1, ← h]
      exact List.mem_cons_self _ _
    · simp only [h1, if_false] at h
      exact List.mem_cons_of_mem _ (ih h)

theorem mapFind_of_mem {k : K} {v : V} {m : List (K × V)} (hwf : MapWF m) (h : (k, v) ∈ m) :
    mapFind k m = some v := by
  unfold MapWF at hwf
  induction m with
  | nil => simp at h
  | cons e es ih =>
    rw [List.pairwise_cons] at hwf
    rw [List.mem_cons] at h
    unfold mapFind
    rcases h with rfl | h
    · simp
    · have hlt := hwf.1 _ h
      have hne : e.1 ≠ k := ne_of_lt hlt
      simp only [hne, if_false]
      exact ih hwf.2 h

theorem mapCount_ne_zero_iff (m : List (K × V)) (k : K) :
    mapCount m k ≠ 0 ↔ (mapFind k m).isSome = true := by
  unfold mapCount
  split <;> simp [*]

theorem mapCount_eq_zero_iff (m : List (K × V)) (k : K) :
    mapCount m k = 0 ↔ mapFind k m = none := by
  unfold mapCount
  cases mapFind k m <;> simp

theorem mapAt_eq_ok_iff (m : List (K × V)) (k : K) (v : V) :
    mapAt m k = .ok v ↔ mapFind k m = some v := by
  unfold mapAt
  cases mapFind k m <;> simp

theorem mapAt_of_none {m : List (K × V)} {k : K} (h : mapFind k m = none) :
    mapAt m k = .error .out_of_range := by
  unfold mapAt
  rw [h]

theorem mapAt_of_some {m : List (K × V)} {k : K} {v : V} (h : mapFind k m = some v) :
    mapAt m k = .ok v := by
  unfold mapAt
  rw [h]

theorem mapErase_keys (k : K) (m : List (K × V)) :
    (mapErase k m).map Prod.fst = (m.map Prod.fst).filter (fun x => decide (x ≠ k)) := by
  unfold mapErase
  rw [List.filter_map]
  rfl

theorem mem_keys_mapErase (a k : K) (m : List (K × V)) :
    a ∈ (mapErase k m).map Prod.fst ↔ a ≠ k ∧ a ∈ m.map Prod.fst := by
  rw [mapErase_keys, List.mem_filter]
  simp [and_comm]

theorem mem_mapErase (e : K × V) (k : K) (m : List (K × V)) :
    e ∈ mapErase k m ↔ e ∈ m ∧ e.1 ≠ k := by
  unfold mapErase
  simp [List.mem_filter]

theorem mapErase_wf (k : K) (m : List (K × V)) (h : MapWF m) : MapWF (mapErase k m) :=
  List.Pairwise.sublist (List.filter_sublist _) h

theorem mem_keys_mapModify (a k : K) (dflt : V) (f : V → V) (m : List (K × V)) :
    a ∈ (mapModify k dflt f m).map Prod.fst ↔ a = k ∨ a ∈ m.map Prod.fst := by
  induction m with
  | nil => simp [mapModify]
  | cons e es ih =>
    unfold mapModify
    by_cases h1 : k < e.1
    · simp [h1]
    · by_cases h2 : k = e.1
      · subst h2
        simp
      · simp only [h1, h2, if_false, List.map_cons, List.mem_cons, ih]
        tauto

theorem mapModify_wf (k : K) (dflt : V) (f : V → V) (m : List (K × V)) (h : MapWF m) :
    MapWF (mapModify k dflt f m) := by
  unfold MapWF at *
  induction m with
  | nil => simp [mapModify]
  | cons e es ih =>
    rw [List.pairwise_cons] at h
    unfold mapModify
    by_cases h1 : k < e.1
    · simp only [h1, if_true, List.pairwise_cons]
      refine ⟨?_, h⟩
      intro a ha
      rw [List.mem_cons] at ha
      rcases ha with rfl | ha
      · exact h1
      · exact lt_trans h1 (h.1 a ha)
    · by_cases h2 : k = e.1
      · subst h2
        simp only [lt_irrefl, if_false, if_true, List.pairwise_cons]
        exact ⟨fun a ha => h.1 a ha, h.2⟩
      · simp only [h1, h2, if_false, List.pairwise_cons]
        refine ⟨?_, ih h.2⟩
        intro a ha
        have hk : a.1 ∈ (mapModify k dflt f es).map Prod.fst := List.mem_map_of_mem _ ha
        rw [mem_keys_mapModify] at hk
        rcases hk with hk | hk
        · rw [hk]
          exact lt_of_le_of_ne (not_lt.mp h1) (Ne.symm h2)
        · obtain ⟨b, hb, hab⟩ := List.mem_map.mp hk
          rw [← hab]
          exact h.1 b hb

theorem mapFind_mapModify_ne (k k' : K) (dflt : V) (f : V → V) (m : List (K × V))
    (hne : k ≠ k') : mapFind k' (mapModify k dflt f m) = mapFind k' m := by
  induction m with
  | nil => simp [mapModify, mapFind, hne]
  | cons e es ih =>
    unfold mapModify
    by_cases h1 : k < e.1
    · simp only [h1, if_true]
      rw [mapFind]
      simp [hne]
    · by_cases h2 : k = e.1
      · subst h2
        simp [mapFind, hne]
      · simp only [h1, h2, if_false]
        rw [mapFind, ih, mapFind]

theorem mapFind_mapModify_self (k : K) (dflt : V) (f : V → V) (m : List (K × V))
    (h : MapWF m) : mapFind k (mapModify k dflt f m) = some (f ((mapFind k m).getD dflt)) := by
  unfold MapWF at h
  induction m with
  | nil => simp [mapModify, mapFind]
  | cons e es ih =>
    rw [List.pairwise_cons] at h
    unfold mapModify
    by_cases h1 : k < e.1
    · have hne : e.1 ≠ k := ne_of_gt h1
      have hnone : mapFind k es = none := by
        rw [mapFind_eq_none_iff]
        intro hk
        obtain ⟨b, hb, hbk⟩ := List.mem_map.mp hk
        have := h.1 b hb
        rw [hbk] at this
        exact absurd (lt_trans h1 this) (lt_irrefl _)
      simp [h1, mapFind, hne, hnone]
    · by_cases h2 : k = e.1
      · subst h2
        simp [mapFind]
      · have hne : e.1 ≠ k := Ne.symm h2
        simp only [h1, h2, if_false]
        rw [mapFind, mapFind]
        simp only [hne, if_false]
        exact ih h.2

theorem mem_keys_mapEmplace (a k : K) (v : V) (m : List (K × V)) :
    a ∈ (mapEmplace k v m).map Prod.fst ↔ a = k ∨ a ∈ m.map Prod.fst := by
  induction m with
  | nil => simp [mapEmplace]
  | cons e es ih =>
    unfold mapEmplace
    by_cases h1 : k < e.1
    · simp [h1]
    · by_cases h2 : k = e.1
      · subst h2
        simp
      · simp only [h1, h2, if_false, List.map_cons, List.mem_cons, ih]
        tauto

theorem mapEmplace_wf (k : K) (v : V) (m : List (K × V)) (h : MapWF m) :
    MapWF (mapEmplace k v m) := by
  unfold MapWF at *
  induction m with
  | nil => simp [mapEmplace]
  | cons e es ih =>
    rw [List.pairwise_cons] at h
    unfold mapEmplace
    by_cases h1 : k < e.1
    · simp only [h1, if_true, List.pairwise_cons]
      refine ⟨?_, h⟩
      intro a ha
      rw [List.mem_cons] at ha
      rcases ha with rfl | ha
      · exact h1
      · exact lt_trans h1 (h.1 a ha)
    · by_cases h2 : k = e.1
      · subst h2
        simp only [lt_irrefl, if_false, if_true, List.pairwise_cons]
        exact h
      · simp only [h1, h2, if_false, List.pairwise_cons]
        refine ⟨?_, ih h.2⟩
        intro a ha
        have hk : a.1 ∈ (mapEmplace k v es).map Prod.fst := List.mem_map_of_mem _ ha
        rw [mem_keys_mapEmplace] at hk
        rcases hk with hk | hk
        · rw [hk]
          exact lt_of_le_of_ne (not_lt.mp h1) (Ne.symm h2)
        · obtain ⟨b, hb, hab⟩ := List.mem_map.mp hk
          rw [← hab]
          exact h.1 b hb

end ContainerLemmas

/-! ### The sort -/

section SortingLemmas

variable {α : Type}

theorem linearInsert_perm (comp : α → α → Bool) (val : α) (l : List α) :
    (linearInsert comp val l).Perm (val :: l) := by
  induction l with
  | nil => simp [linearInsert]
  | cons prev rest ih =>
    unfold linearInsert
    split
    · exact (List.Perm.cons prev ih).trans (List.Perm.swap val prev rest)
    · exact List.Perm.refl _

theorem insertionStep_perm (comp : α → α → Bool) (l : List α) (val : α) :
    (insertionStep comp l val).Perm (val :: l) := by
  unfold insertionStep
  split
  · next h =>
    rw [List.getLast?_eq_none_iff] at h
    subst h
    exact List.Perm.refl _
  · split
    · exact List.perm_append_singleton val l
    · exact linearInsert_perm comp val l

theorem foldl_insertionStep_perm (comp : α → α → Bool) (l acc : List α) :
    (l.foldl (insertionStep comp) acc).Perm (l ++ acc) := by
  induction l generalizing acc with
  | nil => simp
  | cons x xs ih =>
    simp only [List.foldl_cons, List.cons_append]
    exact (ih _).trans ((List.Perm.append_left xs (insertionStep_perm comp acc x)).trans
      List.perm_middle)

/-- The sort returns a permutation of its input, whatever the comparator. -/
theorem sort_perm (comp : α → α → Bool) (l : List α) : (sort comp l).Perm l := by
  unfold sort
  have h := foldl_insertionStep_perm comp l []
  simp only [List.append_nil] at h
  exact (List.reverse_perm _).trans h

theorem sort_length (comp : α → α → Bool) (l : List α) : (sort comp l).length = l.length :=
  (sort_perm comp l).length_eq

theorem mem_sort (comp : α → α → Bool) (l : List α) (a : α) : a ∈ sort comp l ↔ a ∈ l :=
  (sort_perm comp l).mem_iff

theorem StrictWeakOn.trans {comp : α → α → Bool} {S : α → Prop} (h : StrictWeakOn comp S)
    {a b c : α} (ha : S a) (hb : S b) (hc : S c) (hab : comp a b = true)
    (hbc : comp b c = true) : comp a c = true := by
  by_contra hac
  have hac : comp a c = false := by simpa using hac
  have hba := h.asymm a b ha hb hab
  have := h.negTrans b a c hb ha hc hba hac
  rw [hbc] at this
  exact Bool.noConfusion this

theorem linearInsert_pairwise {comp : α → α → Bool} {S : α → Prop} (h : StrictWeakOn comp S)
    (val : α) (hv : S val) (l : List α) (hl : ∀ x ∈ l, S x)
    (hp : l.Pairwise (fun x y => comp x y = false)) :
    (linearInsert comp val l).Pairwise (fun x y => comp x y = false) := by
  induction l with
  | nil => simp [linearInsert]
  | cons prev rest ih =>
    have hprev : S prev := hl prev (List.mem_cons_self _ _)
    have hrest : ∀ x ∈ rest, S x := fun x hx => hl x (List.mem_cons_of_mem _ hx)
    rw [List.pairwise_cons] at hp
    unfold linearInsert
    split
    · next hc =>
      rw [List.pairwise_cons]
      refine ⟨?_, ih hrest hp.2⟩
      intro z hz
      rw [(linearInsert_perm comp val rest).mem_iff, List.mem_cons] at hz
      rcases hz with rfl | hz
      · exact h.asymm _ _ hv hprev hc
      · exact hp.1 z hz
    · next hc =>
      have hc : comp val prev = false := by simpa using hc
      rw [List.pairwise_cons]
      refine ⟨?_, List.pairwise_cons.mpr hp⟩
      intro z hz
      rw [List.mem_cons] at hz
      rcases hz with rfl | hz
      · exact hc
      · exact h.negTrans _ _ _ hv hprev (hrest z hz) hc (hp.1 z hz)

theorem insertionStep_pairwise {comp : α → α → Bool} {S : α → Prop} (h : StrictWeakOn comp S)
    (val : α) (hv : S val) (l : List α) (hl : ∀ x ∈ l, S x)
    (hp : l.Pairwise (fun x y => comp x y = false)) :
    (insertionStep comp l val).Pairwise (fun x y => comp x y = false) := by
  unfold insertionStep
  split
  · simp
  · next first hfirst =>
    split
    · next hc =>
      obtain ⟨ys, rfl⟩ := List.getLast?_eq_some_iff.mp hfirst
      have hf : S first := hl first (by simp)
      rw [List.pairwise_append] at hp
      rw [List.pairwise_append]
      refine ⟨List.pairwise_append.mpr hp, by simp, ?_⟩
      intro x hx y hy
      rw [List.mem_singleton] at hy
      subst hy
      rw [List.mem_append, List.mem_singleton] at hx
      rcases hx with hx | rfl
      · by_contra hxy
        have hxy : comp x y = true := by simpa using hxy
        have hxS : S x := hl x (by simp [hx])
        have := h.trans hxS hv hf hxy hc
        rw [hp.2.2 x hx first (by simp)] at this
        exact Bool.noConfusion this
      · exact h.asymm _ _ hv hf hc
    · exact linearInsert_pairwise h val hv l hl hp

theorem foldl_insertionStep_pairwise {comp : α → α → Bool} {S : α → Prop}
    (h : StrictWeakOn comp S) (l acc : List α) (hl : ∀ x ∈ l, S x) (hacc : ∀ x ∈ acc, S x)
    (hp : acc.Pairwise (fun x y => comp x y = false)) :
    (l.foldl (insertionStep comp) acc).Pairwise (fun x y => comp x y = false) := by
  induction l generalizing acc with
  | nil => simpa using hp
  | cons x xs ih =>
    simp only [List.foldl_cons]
    have hx : S x := hl x (List.mem_cons_self _ _)
    apply ih _ (fun y hy => hl y (List.mem_cons_of_mem _ hy))
    · intro y hy
      rw [(insertionStep_perm comp acc x).mem_iff, List.mem_cons] at hy
      rcases hy with rfl | hy
      · exact hx
      · exact hacc y hy
    · exact insertionStep_pairwise h x hx acc hacc hp

/-- The contract of the sort: when the comparator is a strict weak ordering of the
elements, no element of the result compares before an earlier one. -/
theorem sort_pairwise {comp : α → α → Bool} {S : α → Prop} (h : StrictWeakOn comp S)
    (l : List α) (hl : ∀ x ∈ l, S x) :
    (sort comp l).Pairwise (fun a b => comp b a = false) := by
  unfold sort
  rw [List.pairwise_reverse]
  exact foldl_insertionStep_pairwise h l [] hl (by simp) List.Pairwise.nil

end SortingLemmas

/-! ### The order of the results -/

theorem truncate_sublist {R : Type} (l : List (Document R)) :
    (SearchServer.FindTopDocuments.truncate l).Sublist l := by
  unfold SearchServer.FindTopDocuments.truncate
  split
  · exact List.take_sublist _ _
  · exact List.Sublist.refl _

section Ordering

open SearchServer

variable {R : Type} [LinearOrderedField R]

theorem EPSILON_pos : (0 : R) < EPSILON := by
  unfold EPSILON
  positivity

theorem comp_eq_true_iff (a b : Document R) :
    FindTopDocuments.comp a b = true ↔
      (FindTopDocuments.tied a b ∧ a.rating > b.rating) ∨
      (¬ FindTopDocuments.tied a b ∧ a.relevance > b.relevance) := by
  unfold FindTopDocuments.comp FindTopDocuments.tied
  split <;> simp [*]

theorem comp_eq_false_iff (a b : Document R) :
    FindTopDocuments.comp a b = false ↔
      (FindTopDocuments.tied a b ∧ a.rating ≤ b.rating) ∨
      (¬ FindTopDocuments.tied a b ∧ a.relevance ≤ b.relevance) := by
  unfold FindTopDocuments.comp FindTopDocuments.tied
  split <;> simp [*]

theorem tied_symm {a b : Document R} (h : FindTopDocuments.tied a b) :
    FindTopDocuments.tied b a := by
  unfold FindTopDocuments.tied at *
  rwa [abs_sub_comm]

theorem not_tied_le {a b : Document R} (h : ¬ FindTopDocuments.tied a b)
    (hle : a.relevance ≤ b.relevance) : a.relevance + EPSILON ≤ b.relevance := by
  unfold FindTopDocuments.tied at h
  rw [not_lt, abs_sub_comm, abs_of_nonneg (sub_nonneg.mpr hle)] at h
  linarith

theorem tied_lt {a b : Document R} (h : FindTopDocuments.tied a b) :
    a.relevance < b.relevance + EPSILON := by
  unfold FindTopDocuments.tied at h
  have := (abs_lt.mp h).2
  linarith

/-- The comparator of `FindTopDocuments` is a strict weak ordering of any collection of
documents on which being tied is transitive. -/
theorem comp_strictWeakOn (S : Document R → Prop)
    (htie : ∀ x y z, S x → S y → S z → FindTopDocuments.tied x y →
      FindTopDocuments.tied y z → FindTopDocuments.tied x z) :
    StrictWeakOn (FindTopDocuments.comp (R := R)) S := by
  have heps : (0 : R) < EPSILON := EPSILON_pos
  constructor
  · intro a b _ _ hab
    rw [comp_eq_true_iff] at hab
    rw [comp_eq_false_iff]
    rcases hab with ⟨ht, hr⟩ | ⟨hnt, hr⟩
    · exact Or.inl ⟨tied_symm ht, le_of_lt hr⟩
    · exact Or.inr ⟨fun h => hnt (tied_symm h), le_of_lt hr⟩
  · intro a b c ha hb hc hab hbc
    rw [comp_eq_false_iff] at hab hbc ⊢
    rcases hab with ⟨tab, rab⟩ | ⟨ntab, rab⟩ <;> rcases hbc with ⟨tbc, rbc⟩ | ⟨ntbc, rbc⟩
    · exact Or.inl ⟨htie a b c ha hb hc tab tbc, le_trans rab rbc⟩
    · refine Or.inr ⟨fun tac => ntbc (htie b a c hb ha hc (tied_symm tab) tac), ?_⟩
      have h1 := tied_lt tab
      have h2 := not_tied_le ntbc rbc
      linarith
    · refine Or.inr ⟨fun tac => ntab (htie a c b ha hc hb tac (tied_symm tbc)), ?_⟩
      have h1 := not_tied_le ntab rab
      have h2 := tied_lt tbc
      linarith
    · have h1 := not_tied_le ntab rab
      have h2 := not_tied_le ntbc rbc
      refine Or.inr ⟨fun tac => ?_, by linarith⟩
      have h3 := tied_lt (tied_symm tac)
      linarith

theorem FindTopDocuments_eq (ln : R → R) (s : SearchServer) (raw_query : Str)
    (key_mapper : KeyMapper) (cands : List (Document R))
    (h : FindAllDocuments ln s (s.ParseQuery raw_query) key_mapper = .ok cands) :
    FindTopDocuments ln s raw_query key_mapper =
      .ok (FindTopDocuments.truncate (sort FindTopDocuments.comp cands)) := by
  unfold FindTopDocuments
  simp only [h]
  rfl

/-- C1 (amended): when being tied on relevance is transitive among the documents that
`FindAllDocuments` found, `FindTopDocuments` returns a list in which every document `a`
placed before a document `b` has `a.relevance ≥ b.relevance + EPSILON`, or is tied with
`b` (`|a.relevance - b.relevance| < EPSILON`) and has `a.rating ≥ b.rating`. -/
theorem FindTopDocuments_ordered (ln : R → R) (s : SearchServer) (raw_query : Str)
    (key_mapper : KeyMapper) (cands : List (Document R))
    (hall : FindAllDocuments ln s (s.ParseQuery raw_query) key_mapper = .ok cands)
    (htie : ∀ x ∈ cands, ∀ y ∈ cands, ∀ z ∈ cands, FindTopDocuments.tied x y →
      FindTopDocuments.tied y z → FindTopDocuments.tied x z) :
    ∃ docs, FindTopDocuments ln s raw_query key_mapper = .ok docs ∧
      docs.Pairwise (fun a b =>
        a.relevance ≥ b.relevance + EPSILON ∨
          (|a.relevance - b.relevance| < EPSILON ∧ a.rating ≥ b.rating)) := by
  refine ⟨_, FindTopDocuments_eq ln s raw_query key_mapper cands hall, ?_⟩
  have hsw : StrictWeakOn (FindTopDocuments.comp (R := R)) (fun d => d ∈ cands) :=
    comp_strictWeakOn _ (fun x y z hx hy hz => htie x hx y hy z hz)
  have hsorted := sort_pairwise hsw cands (fun x hx => hx)
  refine List.Pairwise.imp ?_ (List.Pairwise.sublist (truncate_sublist _) hsorted)
  intro a b hba
  rw [comp_eq_false_iff] at hba
  rcases hba with ⟨ht, hr⟩ | ⟨hnt, hr⟩
  · exact Or.inr ⟨tied_symm ht, hr⟩
  · exact Or.inl (by have := not_tied_le hnt hr; linarith)

end Ordering

/-- C1 holds on the corpus of `main`, where no two relevances are close without being
equal. -/
theorem FindTopDocuments_ordered_witness :
    ∃ docs, SearchServer.FindTopDocuments lnQ main_search_server main_query alwaysTrue = .ok docs ∧
      docs.Pairwise (fun a b =>
        a.relevance ≥ b.relevance + SearchServer.EPSILON ∨
          (|a.relevance - b.relevance| < SearchServer.EPSILON ∧ a.rating ≥ b.rating)) :=
  FindTopDocuments_ordered lnQ main_search_server main_query alwaysTrue
    [⟨0, 1/4, 2⟩, ⟨1, 7/4, 5⟩, ⟨2, 1/4, -1⟩, ⟨3, 1/3, 9⟩] (by decide!) (by decide!)


/-! ### Evaluating the server with long documents -/

theorem mapModify_mapModify {K V : Type} [LinearOrder K] (k : K) (dflt : V) (f g : V → V)
    (m : List (K × V)) :
    mapModify k dflt g (mapModify k dflt f m) = mapModify k dflt (fun v => g (f v)) m := by
  induction m with
  | nil => simp [mapModify]
  | cons e es ih =>
    by_cases h1 : k < e.1
    · simp [mapModify, h1]
    · by_cases h2 : k = e.1
      · subst h2
        simp [mapModify]
      · simp [mapModify, h1, h2, ih]

theorem loop_longText_step (n : Nat) (words : List Str) (word : Str) :
    SplitIntoWords.loop (List.replicate (n + 1) [' ', 'x']).flatten words word =
      SplitIntoWords.loop (List.replicate n [' ', 'x']).flatten (words ++ [word]) ['x'] := by
  simp [List.replicate_succ, SplitIntoWords.loop]

theorem loop_longText (n : Nat) (words : List Str) (word : Str) :
    SplitIntoWords.loop (List.replicate (n + 1) [' ', 'x']).flatten words word =
      (words ++ word :: List.replicate n ['x'], ['x']) := by
  induction n generalizing words word with
  | zero => simp [SplitIntoWords.loop]
  | succ n ih =>
    rw [loop_longText_step, ih]
    simp [List.replicate_succ]

theorem SplitIntoWords_longText (n : Nat) :
    SplitIntoWords (longText n) = ['w'] :: List.replicate n ['x'] := by
  have h : SplitIntoWords (longText n) =
      (SplitIntoWords.loop (List.replicate n [' ', 'x']).flatten [] ['w']).1 ++
        [(SplitIntoWords.loop (List.replicate n [' ', 'x']).flatten [] ['w']).2] := by
    simp [SplitIntoWords, longText, SplitIntoWords.loop]
  rw [h]
  cases n with
  | zero => simp [SplitIntoWords.loop]
  | succ n =>
    rw [loop_longText]
    simp [List.replicate_succ']

theorem foldl_addWordFreq_replicate (document_id : Int) (inv_word_count : ℚ) (word : Str)
    (n : Nat) (index : List (Str × List (Int × ℚ))) :
    (List.replicate (n + 1) word).foldl
        (fun index word => SearchServer.addWordFreq document_id inv_word_count index word) index =
      mapModify word []
        (fun posting => mapModify document_id 0 (fun x => x + (n + 1) * inv_word_count) posting)
        index := by
  induction n generalizing index with
  | zero => simp [SearchServer.addWordFreq]
  | succ n ih =>
    rw [List.replicate_succ, List.foldl_cons, ih, SearchServer.addWordFreq, mapModify_mapModify]
    congr 1
    funext posting
    rw [mapModify_mapModify]
    congr 1
    funext x
    push_cast
    ring

/-- Ingesting `longText (n + 1)` under a non-negative id, with no stop words configured. -/
theorem AddDocument_longText (s : SearchServer) (document_id : Int) (n : Nat)
    (status : DocumentStatus) (ratings : List Int) (hs : s.stop_words_ = [])
    (hid : document_id ≥ 0) :
    s.AddDocument document_id (longText (n + 1)) status ratings =
      { _document_count := s._document_count + 1
        stop_words_ := []
        word_to_document_freqs_ :=
          mapModify ['x'] []
            (fun posting => mapModify document_id 0 (fun x => x + (n + 1) * (1 / (n + 2))) posting)
            (mapModify ['w'] []
              (fun posting => mapModify document_id 0 (fun x => x + 1 / (n + 2)) posting)
              s.word_to_document_freqs_)
        documents_ :=
          mapEmplace document_id
            { rating := SearchServer.ComputeAverageRating ratings, status := status }
            s.documents_ } := by
  have hw : s.SplitIntoWordsNoStop (longText (n + 1)) = ['w'] :: List.replicate (n + 1) ['x'] := by
    unfold SearchServer.SplitIntoWordsNoStop SearchServer.IsStopWord
    rw [SplitIntoWords_longText, hs]
    simp
  unfold SearchServer.AddDocument
  simp only [hw, hs, hid, if_true, List.foldl_cons, List.length_cons, List.length_replicate]
  rw [foldl_addWordFreq_replicate]
  simp only [SearchServer.addWordFreq]
  push_cast
  have e : ((n : ℚ) + 1 + 1) = n + 2 := by ring
  rw [e]

theorem tieServer_eq : tieServer =
    { _document_count := 6
      stop_words_ := []
      word_to_document_freqs_ :=
        [(['w'], [(0, 1/835), (1, 1/834), (2, 1/833)]),
         (['x'], [(0, 834/835), (1, 833/834), (2, 832/833)]),
         (['y'], [(3, 1), (4, 1), (5, 1)])]
      documents_ := [(0, ⟨3, .ACTUAL⟩), (1, ⟨2, .ACTUAL⟩), (2, ⟨1, .ACTUAL⟩),
        (3, ⟨0, .ACTUAL⟩), (4, ⟨0, .ACTUAL⟩), (5, ⟨0, .ACTUAL⟩)] } := by
  unfold tieServer
  simp only []
  rw [AddDocument_longText SearchServer.empty 0 833 _ _ rfl (by decide)]
  rw [AddDocument_longText _ 1 832 _ _ rfl (by decide)]
  rw [AddDocument_longText _ 2 831 _ _ rfl (by decide)]
  decide!

theorem tieServer_query : tieServer.ParseQuery ['w'] = ⟨[['w']], []⟩ := by
  rw [tieServer_eq]
  decide

theorem tieServer_findAll :
    SearchServer.FindAllDocuments Real.log tieServer (tieServer.ParseQuery ['w']) alwaysTrue =
      .ok [⟨0, 1 / 835 * Real.log 2, 3⟩, ⟨1, 1 / 834 * Real.log 2, 2⟩,
        ⟨2, 1 / 833 * Real.log 2, 1⟩] := by
  rw [tieServer_query, tieServer_eq]
  simp [SearchServer.FindAllDocuments, SearchServer.FindAllDocuments.plusStep,
    SearchServer.FindAllDocuments.minusStep, SearchServer.FindAllDocuments.emitStep,
    SearchServer.ComputeWordInverseDocumentFreq, mapCount, mapFind, mapAt, mapModify,
    alwaysTrue, bind, Except.bind, pure, Except.pure]
  norm_num

/-- No arrangement of three distinct elements is pairwise ordered by a relation that
fails along a cycle through them. -/
theorem not_pairwise_of_cycle {α : Type} (P : α → α → Prop) (a b c : α) (hac : a ≠ c)
    (hba : b ≠ a) (hcb : c ≠ b) (h1 : ¬ P a c) (h2 : ¬ P b a) (h3 : ¬ P c b) (l : List α)
    (hl : l.Perm [a, b, c]) : ¬ l.Pairwise P := by
  intro hp
  cases l with
  | nil => simpa using hl.length_eq
  | cons x l' =>
    rw [List.pairwise_cons] at hp
    have hx : x ∈ [a, b, c] := hl.mem_iff.mp (List.mem_cons_self _ _)
    have ha : a ∈ x :: l' := hl.mem_iff.mpr (by simp)
    have hb : b ∈ x :: l' := hl.mem_iff.mpr (by simp)
    have hc : c ∈ x :: l' := hl.mem_iff.mpr (by simp)
    simp only [List.mem_cons, List.mem_singleton, List.not_mem_nil, or_false] at hx ha hb hc
    rcases hx with rfl | rfl | rfl
    · rcases hc with hc | hc
      · exact hac hc.symm
      · exact h1 (hp.1 c hc)
    · rcases ha with ha | ha
      · exact hba ha.symm
      · exact h2 (hp.1 a ha)
    · rcases hb with hb | hb
      · exact hcb hb.symm
      · exact h3 (hp.1 b hb)

/-- C1 (counterexample): on `tieServer`, with the real logarithm, the relevances of
documents 0 and 1 and of documents 1 and 2 are closer than `1e-6` while those of
documents 0 and 2 are not, and the ratings run the other way.  `FindTopDocuments`
returns the three documents, and no arrangement of them is ordered as the
specification states. -/
theorem FindTopDocuments_specOrdered_counterexample :
    ∃ docs, SearchServer.FindTopDocuments Real.log tieServer ['w'] alwaysTrue = .ok docs ∧
      ∀ l : List (Document ℝ), l.Perm docs → ¬ l.Pairwise specOrdered := by
  refine ⟨_, FindTopDocuments_eq _ _ _ _ _ tieServer_findAll, ?_⟩
  intro l hl
  have hlen : (sort SearchServer.FindTopDocuments.comp
      [(⟨0, 1 / 835 * Real.log 2, 3⟩ : Document ℝ), ⟨1, 1 / 834 * Real.log 2, 2⟩,
        ⟨2, 1 / 833 * Real.log 2, 1⟩]).length = 3 := sort_length _ _
  have htr : SearchServer.FindTopDocuments.truncate (sort SearchServer.FindTopDocuments.comp
      [(⟨0, 1 / 835 * Real.log 2, 3⟩ : Document ℝ), ⟨1, 1 / 834 * Real.log 2, 2⟩,
        ⟨2, 1 / 833 * Real.log 2, 1⟩]) = sort SearchServer.FindTopDocuments.comp
      [(⟨0, 1 / 835 * Real.log 2, 3⟩ : Document ℝ), ⟨1, 1 / 834 * Real.log 2, 2⟩,
        ⟨2, 1 / 833 * Real.log 2, 1⟩] := by
    unfold SearchServer.FindTopDocuments.truncate
    rw [hlen]
    simp [MAX_RESULT_DOCUMENT_COUNT]
  rw [htr] at hl
  have hperm := hl.trans (sort_perm _ _)
  have hlo := Real.log_two_gt_d9
  have hhi := Real.log_two_lt_d9
  refine not_pairwise_of_cycle specOrdered _ _ _ ?_ ?_ ?_ ?_ ?_ ?_ l hperm
  · intro h
    have := congrArg Document.id h
    simp at this
  · intro h
    have := congrArg Document.id h
    simp at this
  · intro h
    have := congrArg Document.id h
    simp at this
  · unfold specOrdered
    simp only [not_or, not_and, not_lt]
    constructor
    · norm_num at hlo hhi ⊢
      linarith
    · intro h
      rw [abs_le] at h
      norm_num at hlo hhi h ⊢
      linarith
  · unfold specOrdered
    simp only [not_or, not_and, not_lt]
    constructor
    · norm_num at hlo hhi ⊢
      linarith
    · intro _
      norm_num
  · unfold specOrdered
    simp only [not_or, not_and, not_lt]
    constructor
    · norm_num at hlo hhi ⊢
      linarith
    · intro _
      norm_num

/-! ### The number of results -/

theorem truncate_length {R : Type} (l : List (Document R)) :
    (SearchServer.FindTopDocuments.truncate l).length = min 5 l.length := by
  unfold SearchServer.FindTopDocuments.truncate MAX_RESULT_DOCUMENT_COUNT
  split
  · rw [List.length_take]
  · omega

/-- C2: when `FindAllDocuments` returns `cands` for the parsed query, `FindTopDocuments`
returns a list of `min 5 cands.length` documents, so never more than 5; and when
`FindAllDocuments` throws, so does `FindTopDocuments`. -/
theorem FindTopDocuments_length {R : Type} [LinearOrderedField R] (ln : R → R)
    (s : SearchServer) (raw_query : Str) (key_mapper : KeyMapper) :
    (∀ cands, SearchServer.FindAllDocuments ln s (s.ParseQuery raw_query) key_mapper = .ok cands →
      ∃ docs, SearchServer.FindTopDocuments ln s raw_query key_mapper = .ok docs ∧
        docs.length = min 5 cands.length ∧ docs.length ≤ 5) ∧
    (∀ e, SearchServer.FindAllDocuments ln s (s.ParseQuery raw_query) key_mapper = .error e →
      SearchServer.FindTopDocuments ln s raw_query key_mapper = .error e) := by
  constructor
  · intro cands h
    refine ⟨_, FindTopDocuments_eq ln s raw_query key_mapper cands h, ?_⟩
    rw [truncate_length, sort_length]
    exact ⟨rfl, Nat.min_le_left _ _⟩
  · intro e h
    unfold SearchServer.FindTopDocuments
    simp only [h]
    rfl

/-- C2 on a server with six documents that all match: six candidates, five results. -/
theorem FindTopDocuments_length_witness :
    ∃ docs, SearchServer.FindTopDocuments lnQ sixServer "cat".toList alwaysTrue = .ok docs ∧
      docs.length = min 5 6 ∧ docs.length ≤ 5 :=
  (FindTopDocuments_length lnQ sixServer "cat".toList alwaysTrue).1
    [⟨0, 0, 0⟩, ⟨1, 0, 1⟩, ⟨2, 0, 2⟩, ⟨3, 0, 3⟩, ⟨4, 0, 4⟩, ⟨5, 0, 5⟩] (by decide!)

/-! ### The structure of `FindAllDocuments` -/

theorem foldlM_ok {α β : Type} (f : β → α → Except Error β) (g : β → α → β)
    (h : ∀ b a, f b a = .ok (g b a)) (l : List α) (b : β) :
    l.foldlM f b = .ok (l.foldl g b) := by
  induction l generalizing b with
  | nil => rfl
  | cons a l ih =>
    rw [List.foldlM_cons, h, List.foldl_cons]
    exact ih _

section Structure

open SearchServer

variable {R : Type} [LinearOrderedField R]

theorem plusStep_eq (ln : R → R) (s : SearchServer) (m : List (Int × R)) (word : Str) :
    FindAllDocuments.plusStep ln s m word = .ok (FindAllDocuments.plusPure ln s m word) := by
  unfold FindAllDocuments.plusStep FindAllDocuments.plusPure ComputeWordInverseDocumentFreq
    mapCount mapAt
  cases mapFind word s.word_to_document_freqs_ <;> rfl

theorem minusStep_eq (s : SearchServer) (m : List (Int × R)) (word : Str) :
    FindAllDocuments.minusStep s m word = .ok (FindAllDocuments.minusPure s m word) := by
  unfold FindAllDocuments.minusStep FindAllDocuments.minusPure mapCount mapAt
  cases mapFind word s.word_to_document_freqs_ <;> rfl

theorem emitStep_eq (s : SearchServer) (key_mapper : KeyMapper) (acc : List (Document R))
    (it : Int × R) :
    FindAllDocuments.emitStep s key_mapper acc it =
      match mapFind it.1 s.documents_ with
      | some _ => .ok (acc ++ (FindAllDocuments.emitPure s key_mapper it).toList)
      | none => .error .out_of_range := by
  unfold FindAllDocuments.emitStep FindAllDocuments.emitPure mapAt
  cases mapFind it.1 s.documents_ with
  | none => rfl
  | some data =>
    simp only
    by_cases h : key_mapper it.1 data.status data.rating = true
    · simp [h, bind, Except.bind, pure, Except.pure]
    · simp [h, bind, Except.bind, pure, Except.pure]

/-- The emitting loop returns when every entry has metadata. -/
theorem emit_ok (s : SearchServer) (key_mapper : KeyMapper) (m : List (Int × R))
    (acc : List (Document R))
    (h : ∀ it ∈ m, (mapFind it.1 s.documents_).isSome = true) :
    m.foldlM (FindAllDocuments.emitStep s key_mapper) acc =
      .ok (acc ++ m.filterMap (FindAllDocuments.emitPure s key_mapper)) := by
  induction m generalizing acc with
  | nil => simp [pure, Except.pure]
  | cons it m ih =>
    have hit := h it (List.mem_cons_self _ _)
    rw [List.foldlM_cons, emitStep_eq]
    obtain ⟨data, hdata⟩ := Option.isSome_iff_exists.mp hit
    simp only [hdata]
    show List.foldlM _ _ m = _
    rw [ih _ (fun it' h' => h it' (List.mem_cons_of_mem _ h'))]
    cases hemit : FindAllDocuments.emitPure s key_mapper it <;>
      simp [List.filterMap_cons, hemit]

/-- The emitting loop throws when some entry has no metadata. -/
theorem emit_error (s : SearchServer) (key_mapper : KeyMapper) (m : List (Int × R))
    (acc : List (Document R))
    (h : ∃ it ∈ m, mapFind it.1 s.documents_ = none) :
    m.foldlM (FindAllDocuments.emitStep s key_mapper) acc = .error .out_of_range := by
  induction m generalizing acc with
  | nil => simp at h
  | cons it m ih =>
    rw [List.foldlM_cons, emitStep_eq]
    cases hdata : mapFind it.1 s.documents_ with
    | none => rfl
    | some data =>
      simp only
      show List.foldlM _ _ m = _
      apply ih
      obtain ⟨it', hmem, hnone⟩ := h
      rw [List.mem_cons] at hmem
      rcases hmem with rfl | hmem
      · rw [hdata] at hnone
        exact Option.noConfusion hnone
      · exact ⟨it', hmem, hnone⟩

/-- The method `FindAllDocuments` in one line: the two accumulating loops never throw,
and the emitting loop runs over their result. -/
theorem FindAllDocuments_eq (ln : R → R) (s : SearchServer) (query : Query)
    (key_mapper : KeyMapper) :
    FindAllDocuments ln s query key_mapper =
      (FindAllDocuments.candidates ln s query).foldlM
        (FindAllDocuments.emitStep s key_mapper) [] := by
  unfold FindAllDocuments FindAllDocuments.candidates
  rw [foldlM_ok _ _ (plusStep_eq ln s)]
  simp only [bind, Except.bind]
  rw [foldlM_ok _ _ (minusStep_eq s)]

theorem FindAllDocuments_ok (ln : R → R) (s : SearchServer) (query : Query)
    (key_mapper : KeyMapper)
    (h : ∀ it ∈ FindAllDocuments.candidates ln s query,
      (mapFind it.1 s.documents_).isSome = true) :
    FindAllDocuments ln s query key_mapper =
      .ok ((FindAllDocuments.candidates ln s query).filterMap
        (FindAllDocuments.emitPure s key_mapper)) := by
  rw [FindAllDocuments_eq, emit_ok s key_mapper _ [] h, List.nil_append]

theorem FindAllDocuments_error (ln : R → R) (s : SearchServer) (query : Query)
    (key_mapper : KeyMapper)
    (h : ∃ it ∈ FindAllDocuments.candidates ln s query, mapFind it.1 s.documents_ = none) :
    FindAllDocuments ln s query key_mapper = .error .out_of_range := by
  rw [FindAllDocuments_eq, emit_error s key_mapper _ [] h]

/-- Either every candidate has metadata or some candidate has none. -/
theorem candidates_cases (s : SearchServer) (m : List (Int × R)) :
    (∀ it ∈ m, (mapFind it.1 s.documents_).isSome = true) ∨
      (∃ it ∈ m, mapFind it.1 s.documents_ = none) := by
  by_cases h : ∀ it ∈ m, (mapFind it.1 s.documents_).isSome = true
  · exact Or.inl h
  · right
    push_neg at h
    obtain ⟨it, hmem, hne⟩ := h
    refine ⟨it, hmem, ?_⟩
    cases hf : mapFind it.1 s.documents_ with
    | none => rfl
    | some d => simp [hf] at hne

/-- What `FindAllDocuments` returns, when it returns. -/
theorem FindAllDocuments_ok_iff (ln : R → R) (s : SearchServer) (query : Query)
    (key_mapper : KeyMapper) (docs : List (Document R)) :
    FindAllDocuments ln s query key_mapper = .ok docs ↔
      (∀ it ∈ FindAllDocuments.candidates ln s query,
        (mapFind it.1 s.documents_).isSome = true) ∧
      docs = (FindAllDocuments.candidates ln s query).filterMap
        (FindAllDocuments.emitPure s key_mapper) := by
  constructor
  · intro h
    rcases candidates_cases s (FindAllDocuments.candidates ln s query) with hc | hc
    · rw [FindAllDocuments_ok ln s query key_mapper hc] at h
      exact ⟨hc, (Except.ok.inj h).symm⟩
    · rw [FindAllDocuments_error ln s query key_mapper hc] at h
      exact Except.noConfusion h
  · rintro ⟨hc, rfl⟩
    exact FindAllDocuments_ok ln s query key_mapper hc

end Structure

/-! ### Minus-words -/

section Exclusion

open SearchServer

variable {R : Type} [LinearOrderedField R]

theorem mem_foldl_mapErase (e : Int × R) (posting : List (Int × ℚ)) (m : List (Int × R)) :
    e ∈ posting.foldl (fun m it => mapErase it.1 m) m ↔
      e ∈ m ∧ e.1 ∉ posting.map Prod.fst := by
  induction posting generalizing m with
  | nil => simp
  | cons it posting ih =>
    rw [List.foldl_cons, ih, mem_mapErase]
    simp only [List.map_cons, List.mem_cons, not_or]
    tauto

theorem mem_minusPure (s : SearchServer) (e : Int × R) (m : List (Int × R)) (word : Str) :
    e ∈ FindAllDocuments.minusPure s m word ↔ e ∈ m ∧ s.hasPosting word e.1 = false := by
  unfold FindAllDocuments.minusPure hasPosting
  cases mapFind word s.word_to_document_freqs_ with
  | none => simp
  | some posting =>
    simp only
    rw [mem_foldl_mapErase, ← mapFind_isSome_iff]
    simp

theorem mem_foldl_minusPure (s : SearchServer) (e : Int × R) (ws : List Str)
    (m : List (Int × R)) :
    e ∈ ws.foldl (FindAllDocuments.minusPure s) m ↔
      e ∈ m ∧ ∀ w ∈ ws, s.hasPosting w e.1 = false := by
  induction ws generalizing m with
  | nil => simp
  | cons w ws ih =>
    rw [List.foldl_cons, ih, mem_minusPure]
    simp only [List.mem_cons, forall_eq_or_imp]
    tauto

/-- Every document that `FindAllDocuments` returns comes from an entry of the candidate
map. -/
theorem FindAllDocuments_mem (ln : R → R) (s : SearchServer) (query : Query)
    (key_mapper : KeyMapper) (docs : List (Document R))
    (h : FindAllDocuments ln s query key_mapper = .ok docs) (doc : Document R)
    (hdoc : doc ∈ docs) :
    ∃ it ∈ FindAllDocuments.candidates ln s query,
      FindAllDocuments.emitPure s key_mapper it = some doc := by
  rw [FindAllDocuments_ok_iff] at h
  obtain ⟨_, rfl⟩ := h
  rw [List.mem_filterMap] at hdoc
  exact hdoc

theorem emitPure_some (s : SearchServer) (key_mapper : KeyMapper) (it : Int × R)
    (doc : Document R) (h : FindAllDocuments.emitPure s key_mapper it = some doc) :
    ∃ data, mapFind it.1 s.documents_ = some data ∧
      key_mapper it.1 data.status data.rating = true ∧
      doc = { id := it.1, relevance := it.2, rating := data.rating } := by
  unfold FindAllDocuments.emitPure at h
  cases hd : mapFind it.1 s.documents_ with
  | none => simp [hd] at h
  | some data =>
    simp only [hd] at h
    by_cases hk : key_mapper it.1 data.status data.rating = true
    · simp only [hk, if_true, Option.some.injEq] at h
      exact ⟨data, rfl, hk, h.symm⟩
    · simp [hk] at h

/-- Every document that `FindTopDocuments` returns is one that `FindAllDocuments`
returns. -/
theorem FindTopDocuments_subset (ln : R → R) (s : SearchServer) (raw_query : Str)
    (key_mapper : KeyMapper) (docs : List (Document R))
    (h : FindTopDocuments ln s raw_query key_mapper = .ok docs) :
    ∃ cands, FindAllDocuments ln s (s.ParseQuery raw_query) key_mapper = .ok cands ∧
      docs = FindTopDocuments.truncate (sort FindTopDocuments.comp cands) ∧
      ∀ doc ∈ docs, doc ∈ cands := by
  cases hall : FindAllDocuments ln s (s.ParseQuery raw_query) key_mapper with
  | error e =>
    unfold FindTopDocuments at h
    simp only [hall] at h
    exact Except.noConfusion h
  | ok cands =>
    rw [FindTopDocuments_eq ln s raw_query key_mapper cands hall] at h
    have hd := (Except.ok.inj h).symm
    refine ⟨cands, rfl, hd, ?_⟩
    intro doc hdoc
    rw [hd] at hdoc
    exact (mem_sort _ _ _).mp ((truncate_sublist _).subset hdoc)

end Exclusion

/-! ### The structure of `MatchDocument` -/

section Matching

open SearchServer

theorem match_plusStep_eq (s : SearchServer) (document_id : Int) (acc : List Str)
    (word : Str) :
    MatchDocument.plusStep s document_id acc word =
      match mapFind word s.word_to_document_freqs_ with
      | none => .error .out_of_range
      | some _ => .ok (if s.hasPosting word document_id then acc ++ [word] else acc) := by
  unfold MatchDocument.plusStep hasPosting andAlso mapCount mapAt
  cases mapFind word s.word_to_document_freqs_ with
  | none => rfl
  | some posting =>
    cases hd : (mapFind document_id posting).isSome <;>
      simp [hd, bind, Except.bind, pure, Except.pure]

theorem match_minusStep_eq (s : SearchServer) (document_id : Int) (acc : List Str)
    (word : Str) :
    MatchDocument.minusStep s document_id acc word =
      .ok (if s.hasPosting word document_id then [] else acc) := by
  unfold MatchDocument.minusStep hasPosting andAlso mapCount mapAt
  cases mapFind word s.word_to_document_freqs_ with
  | none => rfl
  | some posting =>
    cases hd : (mapFind document_id posting).isSome <;>
      simp [hd, bind, Except.bind, pure, Except.pure]

theorem match_minus_foldl (s : SearchServer) (document_id : Int) (ws : List Str)
    (acc : List Str) :
    ws.foldl (fun acc w => if s.hasPosting w document_id then [] else acc) acc =
      if ws.any (fun w => s.hasPosting w document_id) then [] else acc := by
  induction ws generalizing acc with
  | nil => simp
  | cons w ws ih =>
    rw [List.foldl_cons, ih, List.any_cons]
    cases hw : s.hasPosting w document_id <;> simp

/-- The plus-word loop of `MatchDocument` returns when every word is a key of the
index. -/
theorem match_plus_ok (s : SearchServer) (document_id : Int) (ws : List Str)
    (acc : List Str) (h : ∀ w ∈ ws, (mapFind w s.word_to_document_freqs_).isSome = true) :
    ws.foldlM (MatchDocument.plusStep s document_id) acc =
      .ok (acc ++ ws.filter (fun w => s.hasPosting w document_id)) := by
  induction ws generalizing acc with
  | nil => simp [pure, Except.pure]
  | cons w ws ih =>
    rw [List.foldlM_cons, match_plusStep_eq]
    obtain ⟨posting, hp⟩ := Option.isSome_iff_exists.mp (h w (List.mem_cons_self _ _))
    simp only [hp]
    show List.foldlM _ _ ws = _
    rw [ih _ (fun w' h' => h w' (List.mem_cons_of_mem _ h')), List.filter_cons]
    cases hw : s.hasPosting w document_id <;> simp

/-- The plus-word loop of `MatchDocument` throws when some word is no key of the index. -/
theorem match_plus_error (s : SearchServer) (document_id : Int) (ws : List Str)
    (acc : List Str) (h : ∃ w ∈ ws, mapFind w s.word_to_document_freqs_ = none) :
    ws.foldlM (MatchDocument.plusStep s document_id) acc = .error .out_of_range := by
  induction ws generalizing acc with
  | nil => simp at h
  | cons w ws ih =>
    rw [List.foldlM_cons, match_plusStep_eq]
    cases hp : mapFind w s.word_to_document_freqs_ with
    | none => rfl
    | some posting =>
      simp only
      show List.foldlM _ _ ws = _
      apply ih
      obtain ⟨w', hmem, hnone⟩ := h
      rw [List.mem_cons] at hmem
      rcases hmem with rfl | hmem
      · rw [hp] at hnone
        exact Option.noConfusion hnone
      · exact ⟨w', hmem, hnone⟩

/-- The method `MatchDocument` when every plus-word is a key of the index and the
document has metadata. -/
theorem MatchDocument_ok (s : SearchServer) (raw_query : Str) (document_id : Int)
    (data : DocumentData)
    (hplus : ∀ w ∈ (s.ParseQuery raw_query).plus_words,
      (mapFind w s.word_to_document_freqs_).isSome = true)
    (hdata : mapFind document_id s.documents_ = some data) :
    MatchDocument s raw_query document_id =
      .ok (s.matchedWords (s.ParseQuery raw_query) document_id, data.status) := by
  unfold MatchDocument SearchServer.matchedWords
  simp only []
  rw [match_plus_ok s document_id _ [] hplus]
  simp only [bind, Except.bind]
  rw [foldlM_ok _ _ (match_minusStep_eq s document_id), match_minus_foldl,
    mapAt_of_some hdata]
  simp [pure, Except.pure]

/-- The method `MatchDocument` throws when some plus-word is no key of the index. -/
theorem MatchDocument_error_plus (s : SearchServer) (raw_query : Str) (document_id : Int)
    (hplus : ∃ w ∈ (s.ParseQuery raw_query).plus_words,
      mapFind w s.word_to_document_freqs_ = none) :
    MatchDocument s raw_query document_id = .error .out_of_range := by
  unfold MatchDocument
  simp only []
  rw [match_plus_error s document_id _ [] hplus]
  rfl

/-- The method `MatchDocument` throws when the document has no metadata. -/
theorem MatchDocument_error_data (s : SearchServer) (raw_query : Str) (document_id : Int)
    (hdata : mapFind document_id s.documents_ = none) :
    MatchDocument s raw_query document_id = .error .out_of_range := by
  by_cases hplus : ∀ w ∈ (s.ParseQuery raw_query).plus_words,
      (mapFind w s.word_to_document_freqs_).isSome = true
  · unfold MatchDocument
    simp only []
    rw [match_plus_ok s document_id _ [] hplus]
    simp only [bind, Except.bind]
    rw [foldlM_ok _ _ (match_minusStep_eq s document_id), mapAt_of_none hdata]
  · apply MatchDocument_error_plus
    push_neg at hplus
    obtain ⟨w, hw, hne⟩ := hplus
    refine ⟨w, hw, ?_⟩
    cases hf : mapFind w s.word_to_document_freqs_ with
    | none => rfl
    | some d => simp [hf] at hne

/-- What `MatchDocument` returns, when it returns. -/
theorem MatchDocument_ok_iff (s : SearchServer) (raw_query : Str) (document_id : Int)
    (words : List Str) (status : DocumentStatus) :
    MatchDocument s raw_query document_id = .ok (words, status) ↔
      (∀ w ∈ (s.ParseQuery raw_query).plus_words,
        (mapFind w s.word_to_document_freqs_).isSome = true) ∧
      (∃ data, mapFind document_id s.documents_ = some data ∧ status = data.status) ∧
      words = s.matchedWords (s.ParseQuery raw_query) document_id := by
  constructor
  · intro h
    by_cases hplus : ∀ w ∈ (s.ParseQuery raw_query).plus_words,
        (mapFind w s.word_to_document_freqs_).isSome = true
    · cases hdata : mapFind document_id s.documents_ with
      | none =>
        rw [MatchDocument_error_data s raw_query document_id hdata] at h
        exact Except.noConfusion h
      | some data =>
        rw [MatchDocument_ok s raw_query document_id data hplus hdata] at h
        have h2 := Except.ok.inj h
        rw [Prod.mk.injEq] at h2
        exact ⟨hplus, ⟨data, rfl, h2.2.symm⟩, h2.1.symm⟩
    · have : MatchDocument s raw_query document_id = .error .out_of_range := by
        apply MatchDocument_error_plus
        push_neg at hplus
        obtain ⟨w, hw, hne⟩ := hplus
        refine ⟨w, hw, ?_⟩
        cases hf : mapFind w s.word_to_document_freqs_ with
        | none => rfl
        | some d => simp [hf] at hne
      rw [this] at h
      exact Except.noConfusion h
  · rintro ⟨hplus, ⟨data, hdata, rfl⟩, rfl⟩
    exact MatchDocument_ok s raw_query document_id data hplus hdata

end Matching

/-! ### Exclusion dominance -/

/-- C3: if a minus-word of the parsed query has a posting entry for document `d`, then
no document that `FindTopDocuments` returns has id `d`, and the list of matched words
that `MatchDocument` returns for `d` is empty. -/
theorem exclusion_dominance {R : Type} [LinearOrderedField R] (ln : R → R)
    (s : SearchServer) (raw_query : Str) (key_mapper : KeyMapper) (d : Int) (word : Str)
    (hword : word ∈ (s.ParseQuery raw_query).minus_words)
    (hposting : s.hasPosting word d = true) :
    (∀ docs, SearchServer.FindTopDocuments ln s raw_query key_mapper = .ok docs →
      ∀ doc ∈ docs, doc.id ≠ d) ∧
    (∀ words status, SearchServer.MatchDocument s raw_query d = .ok (words, status) →
      words = []) := by
  constructor
  · intro docs h doc hdoc hid
    obtain ⟨cands, hall, _, hsub⟩ := FindTopDocuments_subset ln s raw_query key_mapper docs h
    obtain ⟨it, hit, hemit⟩ := FindAllDocuments_mem ln s _ key_mapper cands hall doc
      (hsub doc hdoc)
    obtain ⟨data, _, _, hdoc_eq⟩ := emitPure_some s key_mapper it doc hemit
    unfold SearchServer.FindAllDocuments.candidates at hit
    rw [mem_foldl_minusPure] at hit
    have hfalse := hit.2 word hword
    have hid' : it.1 = d := by
      rw [← hid, hdoc_eq]
    rw [hid', hposting] at hfalse
    exact Bool.noConfusion hfalse
  · intro words status h
    rw [MatchDocument_ok_iff] at h
    obtain ⟨_, _, hwords⟩ := h
    rw [hwords]
    unfold SearchServer.matchedWords
    have hany : (s.ParseQuery raw_query).minus_words.any (fun w => s.hasPosting w d) = true :=
      List.any_eq_true.mpr ⟨word, hword, hposting⟩
    rw [hany]
    rfl

/-- C3 on the corpus of `main`: the minus-word of the query occurs in document 2 only,
which the other query word would match. -/
theorem exclusion_dominance_witness :
    (∀ docs, SearchServer.FindTopDocuments lnQ main_search_server exclusion_query alwaysTrue =
        .ok docs → ∀ doc ∈ docs, doc.id ≠ 2) ∧
    (∀ words status, SearchServer.MatchDocument main_search_server exclusion_query 2 =
        .ok (words, status) → words = []) ∧
    SearchServer.FindTopDocuments lnQ main_search_server exclusion_query alwaysTrue =
      .ok [⟨3, 1/3, 9⟩] ∧
    SearchServer.MatchDocument main_search_server exclusion_query 2 =
      .ok ([], DocumentStatus.ACTUAL) :=
  ⟨(exclusion_dominance lnQ main_search_server exclusion_query alwaysTrue 2 "пёс".toList
      (by decide) (by decide)).1,
    (exclusion_dominance lnQ main_search_server exclusion_query alwaysTrue 2 "пёс".toList
      (by decide) (by decide)).2,
    by decide!, by decide!⟩

/-! ### Predicate filtering -/

theorem filterMap_emitPure {R : Type} [LinearOrderedField R] (s : SearchServer)
    (key_mapper : KeyMapper) (m : List (Int × R)) :
    m.filterMap (SearchServer.FindAllDocuments.emitPure s key_mapper) =
      (m.filterMap (SearchServer.FindAllDocuments.emitPure s alwaysTrue)).filter
        (s.passes key_mapper) := by
  induction m with
  | nil => rfl
  | cons it m ih =>
    rw [List.filterMap_cons, List.filterMap_cons, ih]
    unfold SearchServer.FindAllDocuments.emitPure
    cases hd : mapFind it.1 s.documents_ with
    | none => simp
    | some data =>
      simp only [alwaysTrue, if_true]
      rw [List.filter_cons]
      have hp : s.passes key_mapper
          ({ id := it.1, relevance := it.2, rating := data.rating } : Document R) =
          key_mapper it.1 data.status data.rating := by
        unfold SearchServer.passes
        simp only [hd]
      rw [hp]
      cases key_mapper it.1 data.status data.rating <;> simp

/-- C4: `FindAllDocuments` with a predicate returns what it returns with the predicate
that accepts everything, filtered by the predicate applied to the id, the stored status
and the rating of each document (and throws exactly when that call throws); so every
document that `FindTopDocuments` returns is among the documents found without a filter
and satisfies the predicate. -/
theorem predicate_filtering {R : Type} [LinearOrderedField R] (ln : R → R)
    (s : SearchServer) (key_mapper : KeyMapper) :
    (∀ query, SearchServer.FindAllDocuments ln s query key_mapper =
      Except.map (List.filter (s.passes key_mapper))
        (SearchServer.FindAllDocuments ln s query alwaysTrue)) ∧
    (∀ raw_query docs, SearchServer.FindTopDocuments ln s raw_query key_mapper = .ok docs →
      ∃ all, SearchServer.FindAllDocuments ln s (s.ParseQuery raw_query) alwaysTrue = .ok all ∧
        ∀ doc ∈ docs, doc ∈ all ∧ s.passes key_mapper doc = true) := by
  have hfirst : ∀ query, SearchServer.FindAllDocuments ln s query key_mapper =
      Except.map (List.filter (s.passes key_mapper))
        (SearchServer.FindAllDocuments ln s query alwaysTrue) := by
    intro query
    rcases candidates_cases s (SearchServer.FindAllDocuments.candidates ln s query) with hc | hc
    · rw [FindAllDocuments_ok ln s query key_mapper hc, FindAllDocuments_ok ln s query alwaysTrue hc,
        filterMap_emitPure]
      rfl
    · rw [FindAllDocuments_error ln s query key_mapper hc,
        FindAllDocuments_error ln s query alwaysTrue hc]
      rfl
  refine ⟨hfirst, ?_⟩
  intro raw_query docs h
  obtain ⟨cands, hall, _, hsub⟩ := FindTopDocuments_subset ln s raw_query key_mapper docs h
  rw [hfirst] at hall
  cases hall' : SearchServer.FindAllDocuments ln s (s.ParseQuery raw_query) alwaysTrue with
  | error e =>
    rw [hall'] at hall
    exact Except.noConfusion hall
  | ok all =>
    rw [hall'] at hall
    have hc : cands = all.filter (s.passes key_mapper) := (Except.ok.inj hall).symm
    refine ⟨all, rfl, ?_⟩
    intro doc hdoc
    have := hsub doc hdoc
    rw [hc, List.mem_filter] at this
    exact this

/-- C4 on the corpus of `main` with the predicate of its last query, the even ids. -/
theorem predicate_filtering_witness :
    ∃ all, SearchServer.FindAllDocuments lnQ main_search_server
        (main_search_server.ParseQuery main_query) alwaysTrue = .ok all ∧
      ∀ doc ∈ [(⟨0, 1/4, 2⟩ : Document ℚ), ⟨2, 1/4, -1⟩],
        doc ∈ all ∧ main_search_server.passes main_even_ids doc = true :=
  (predicate_filtering lnQ main_search_server main_even_ids).2 main_query
    [⟨0, 1/4, 2⟩, ⟨2, 1/4, -1⟩] (by decide!)

/-! ### The invariant of the reachable states -/

theorem mem_mapModify {K V : Type} [LinearOrder K] (e : K × V) (k : K) (dflt : V)
    (f : V → V) (m : List (K × V)) (h : e ∈ mapModify k dflt f m) :
    e ∈ m ∨ (e.1 = k ∧ (e.2 = f dflt ∨ ∃ v, (k, v) ∈ m ∧ e.2 = f v)) := by
  induction m with
  | nil =>
    simp only [mapModify, List.mem_singleton] at h
    subst h
    exact Or.inr ⟨rfl, Or.inl rfl⟩
  | cons x xs ih =>
    unfold mapModify at h
    by_cases h1 : k < x.1
    · simp only [h1, if_true, List.mem_cons] at h
      rcases h with rfl | h
      · exact Or.inr ⟨rfl, Or.inl rfl⟩
      · exact Or.inl (List.mem_cons.mpr h)
    · by_cases h2 : k = x.1
      · subst h2
        simp only [lt_irrefl, if_false, if_true, List.mem_cons] at h
        rcases h with rfl | h
        · exact Or.inr ⟨rfl, Or.inr ⟨x.2, List.mem_cons_self _ _, rfl⟩⟩
        · exact Or.inl (List.mem_cons_of_mem _ h)
      · simp only [h1, h2, if_false, List.mem_cons] at h
        rcases h with rfl | h
        · exact Or.inl (List.mem_cons_self _ _)
        · rcases ih h with h' | ⟨hk, h'⟩
          · exact Or.inl (List.mem_cons_of_mem _ h')
          · refine Or.inr ⟨hk, ?_⟩
            rcases h' with h' | ⟨v, hv, h'⟩
            · exact Or.inl h'
            · exact Or.inr ⟨v, List.mem_cons_of_mem _ hv, h'⟩

theorem mapModify_ne_nil {K V : Type} [LinearOrder K] (k : K) (dflt : V) (f : V → V)
    (m : List (K × V)) : mapModify k dflt f m ≠ [] := by
  intro h
  have hk : k ∈ (mapModify k dflt f m).map Prod.fst :=
    (mem_keys_mapModify k k dflt f m).mpr (Or.inl rfl)
  rw [h] at hk
  simp at hk

theorem IndexOK.mono {D D' : Int → Prop} {index : List (Str × List (Int × ℚ))}
    (h : IndexOK D index) (hD : ∀ id, D id → D' id) : IndexOK D' index :=
  ⟨h.wf, h.posting_wf, h.posting_ne,
    fun e he it hit => ⟨(h.posting_ids e he it hit).1, hD _ (h.posting_ids e he it hit).2⟩⟩

theorem addWordFreq_ok {D : Int → Prop} (document_id : Int) (inv_word_count : ℚ)
    (index : List (Str × List (Int × ℚ))) (word : Str) (h : IndexOK D index)
    (hid : 0 ≤ document_id) (hD : D document_id) :
    IndexOK D (SearchServer.addWordFreq document_id inv_word_count index word) := by
  unfold SearchServer.addWordFreq
  have hnew : ∀ posting : List (Int × ℚ), MapWF posting →
      (∀ it ∈ posting, 0 ≤ it.1 ∧ D it.1) →
      ∀ it ∈ mapModify document_id 0 (fun x => x + inv_word_count) posting,
        0 ≤ it.1 ∧ D it.1 := by
    intro posting _ hids it hit
    have hk : it.1 ∈ (mapModify document_id 0 (fun x => x + inv_word_count) posting).map
        Prod.fst := List.mem_map_of_mem _ hit
    rw [mem_keys_mapModify] at hk
    rcases hk with hk | hk
    · rw [hk]
      exact ⟨hid, hD⟩
    · obtain ⟨b, hb, hbk⟩ := List.mem_map.mp hk
      rw [← hbk]
      exact hids b hb
  have hcases : ∀ e ∈ mapModify word []
      (fun posting => mapModify document_id 0 (fun x => x + inv_word_count) posting) index,
      e ∈ index ∨ ∃ posting : List (Int × ℚ), MapWF posting ∧
        (∀ it ∈ posting, 0 ≤ it.1 ∧ D it.1) ∧
        e.2 = mapModify document_id 0 (fun x => x + inv_word_count) posting := by
    intro e he
    rcases mem_mapModify e _ _ _ _ he with h' | ⟨_, h' | ⟨v, hv, h'⟩⟩
    · exact Or.inl h'
    · exact Or.inr ⟨[], List.Pairwise.nil, by simp, h'⟩
    · exact Or.inr ⟨v, h.posting_wf _ hv, h.posting_ids _ hv, h'⟩
  refine ⟨mapModify_wf _ _ _ _ h.wf, ?_, ?_, ?_⟩
  · intro e he
    rcases hcases e he with h' | ⟨posting, hwf, _, h'⟩
    · exact h.posting_wf e h'
    · rw [h']
      exact mapModify_wf _ _ _ _ hwf
  · intro e he
    rcases hcases e he with h' | ⟨posting, _, _, h'⟩
    · exact h.posting_ne e h'
    · rw [h']
      exact mapModify_ne_nil _ _ _ _
  · intro e he
    rcases hcases e he with h' | ⟨posting, hwf, hids, h'⟩
    · exact h.posting_ids e h'
    · rw [h']
      exact hnew posting hwf hids

theorem foldl_addWordFreq_ok {D : Int → Prop} (document_id : Int) (inv_word_count : ℚ)
    (words : List Str) (index : List (Str × List (Int × ℚ))) (h : IndexOK D index)
    (hD : 0 ≤ document_id → D document_id) :
    IndexOK D (words.foldl
      (fun index word =>
        if document_id ≥ 0 then SearchServer.addWordFreq document_id inv_word_count index word
        else index) index) := by
  induction words generalizing index with
  | nil => exact h
  | cons w ws ih =>
    rw [List.foldl_cons]
    apply ih
    by_cases hid : document_id ≥ 0
    · simp only [hid, if_true]
      exact addWordFreq_ok _ _ _ _ h hid (hD hid)
    · simp only [hid, if_false]
      exact h

theorem empty_wf : SearchServer.empty.WF :=
  ⟨List.Pairwise.nil, List.Pairwise.nil,
    ⟨List.Pairwise.nil, by simp [SearchServer.empty], by simp [SearchServer.empty],
      by simp [SearchServer.empty]⟩⟩

theorem SetStopWords_wf (s : SearchServer) (text : Str) (h : s.WF) :
    (s.SetStopWords text).WF :=
  ⟨foldl_setInsert_wf _ _ h.stop_words, h.documents, h.index⟩

theorem AddDocument_wf (s : SearchServer) (document_id : Int) (document : Str)
    (status : DocumentStatus) (ratings : List Int) (h : s.WF) :
    (s.AddDocument document_id document status ratings).WF := by
  refine ⟨h.stop_words, mapEmplace_wf _ _ _ h.documents, ?_⟩
  have hmono : ∀ id, (mapFind id s.documents_).isSome = true →
      (mapFind id (mapEmplace document_id
        { rating := SearchServer.ComputeAverageRating ratings, status := status }
        s.documents_)).isSome = true := by
    intro id hid
    rw [mapFind_isSome_iff] at hid ⊢
    exact (mem_keys_mapEmplace _ _ _ _).mpr (Or.inr hid)
  apply foldl_addWordFreq_ok _ _ _ _ (h.index.mono hmono)
  intro _
  rw [mapFind_isSome_iff]
  exact (mem_keys_mapEmplace _ _ _ _).mpr (Or.inl rfl)

/-- Every reachable state satisfies the invariant. -/
theorem Reachable.wf {s : SearchServer} (h : Reachable s) : s.WF := by
  induction h with
  | empty => exact empty_wf
  | setStopWords s text _ ih => exact SetStopWords_wf s text ih
  | addDocument s document_id document status ratings _ ih =>
    exact AddDocument_wf s document_id document status ratings ih

/-! ### The relevance formula -/

section Relevance

open SearchServer

variable {R : Type} [LinearOrderedField R]

/-- The accumulation of one posting into `document_to_relevance`, seen from a
document. -/
theorem mapFind_foldl_posting (c : R) (d : Int) (posting : List (Int × ℚ))
    (hp : MapWF posting) (m : List (Int × R)) (hm : MapWF m) :
    MapWF (posting.foldl (fun m it => mapModify it.1 0 (fun x => x + (it.2 : R) * c) m) m) ∧
    mapFind d (posting.foldl (fun m it => mapModify it.1 0 (fun x => x + (it.2 : R) * c) m) m) =
      match mapFind d posting with
      | some t => some ((mapFind d m).getD 0 + (t : R) * c)
      | none => mapFind d m := by
  induction posting generalizing m with
  | nil => exact ⟨hm, rfl⟩
  | cons it rest ih =>
    have hp' : MapWF rest := (List.pairwise_cons.mp hp).2
    have hm' : MapWF (mapModify it.1 0 (fun x => x + (it.2 : R) * c) m) :=
      mapModify_wf _ _ _ _ hm
    rw [List.foldl_cons]
    refine ⟨(ih hp' _ hm').1, ?_⟩
    rw [(ih hp' _ hm').2]
    by_cases hid : it.1 = d
    · have hnone : mapFind d rest = none := by
        rw [mapFind_eq_none_iff]
        intro hk
        obtain ⟨b, hb, hbk⟩ := List.mem_map.mp hk
        have := (List.pairwise_cons.mp hp).1 b hb
        rw [hbk, hid] at this
        exact lt_irrefl _ this
      rw [hnone]
      simp only [mapFind, hid, if_true]
      rw [← hid, mapFind_mapModify_self _ _ _ _ hm]
    · rw [mapFind_mapModify_ne _ _ _ _ _ hid]
      simp only [mapFind, hid, if_false]

theorem plusPure_spec (ln : R → R) (s : SearchServer) (hs : s.WF) (d : Int)
    (m : List (Int × R)) (hm : MapWF m) (word : Str) :
    MapWF (FindAllDocuments.plusPure ln s m word) ∧
    mapFind d (FindAllDocuments.plusPure ln s m word) =
      if s.hasPosting word d then
        some ((mapFind d m).getD 0 + relevanceTerm ln (s.documents_.length : R) s d word)
      else mapFind d m := by
  unfold FindAllDocuments.plusPure hasPosting relevanceTerm tf df
  cases hw : mapFind word s.word_to_document_freqs_ with
  | none => exact ⟨hm, by simp⟩
  | some posting =>
    have hp : MapWF posting := hs.index.posting_wf _ (mapFind_mem hw)
    simp only
    refine ⟨(mapFind_foldl_posting _ d posting hp m hm).1, ?_⟩
    rw [(mapFind_foldl_posting _ d posting hp m hm).2]
    cases hd : mapFind d posting with
    | none => simp
    | some t => simp

theorem foldl_plusPure_spec (ln : R → R) (s : SearchServer) (hs : s.WF) (d : Int)
    (ws : List Str) (m : List (Int × R)) (hm : MapWF m) :
    MapWF (ws.foldl (FindAllDocuments.plusPure ln s) m) ∧
    mapFind d (ws.foldl (FindAllDocuments.plusPure ln s) m) =
      if ws.filter (fun w => s.hasPosting w d) = [] then mapFind d m
      else some ((mapFind d m).getD 0 +
        ((ws.filter (fun w => s.hasPosting w d)).map
          (relevanceTerm ln (s.documents_.length : R) s d)).sum) := by
  induction ws generalizing m with
  | nil => exact ⟨hm, by simp⟩
  | cons w ws ih =>
    have hstep := plusPure_spec ln s hs d m hm w
    rw [List.foldl_cons]
    refine ⟨(ih _ hstep.1).1, ?_⟩
    rw [(ih _ hstep.1).2, hstep.2, List.filter_cons]
    by_cases hw : s.hasPosting w d = true
    · simp only [hw, if_true]
      by_cases hf : ws.filter (fun w => s.hasPosting w d) = []
      · simp [hf]
      · simp [hf, add_assoc]
    · simp only [hw]
      simp

/-- The relevance that the first loop of `FindAllDocuments` accumulates for a document. -/
theorem plus_map_spec (ln : R → R) (s : SearchServer) (hs : s.WF) (query : Query) (d : Int) :
    MapWF (query.plus_words.foldl (FindAllDocuments.plusPure ln s) ([] : List (Int × R))) ∧
    ∀ v, mapFind d (query.plus_words.foldl (FindAllDocuments.plusPure ln s) []) = some v →
      v = relevanceSum ln (s.documents_.length : R) s query d := by
  have h := foldl_plusPure_spec ln s hs d query.plus_words [] List.Pairwise.nil
  refine ⟨h.1, ?_⟩
  intro v hv
  rw [h.2] at hv
  unfold relevanceSum
  by_cases hf : query.plus_words.filter (fun w => s.hasPosting w d) = []
  · simp [hf, mapFind] at hv
  · simp only [hf, if_false, mapFind, Option.getD_none, zero_add, Option.some.injEq] at hv
    exact hv.symm

theorem mem_keys_foldl_posting (c : R) (a : Int) (posting : List (Int × ℚ))
    (m : List (Int × R))
    (h : a ∈ (posting.foldl (fun m it => mapModify it.1 0 (fun x => x + (it.2 : R) * c) m)
      m).map Prod.fst) :
    a ∈ m.map Prod.fst ∨ a ∈ posting.map Prod.fst := by
  induction posting generalizing m with
  | nil => exact Or.inl h
  | cons it rest ih =>
    rw [List.foldl_cons] at h
    rcases ih _ h with h' | h'
    · rw [mem_keys_mapModify] at h'
      rcases h' with h' | h'
      · exact Or.inr (by simp [h'])
      · exact Or.inl h'
    · exact Or.inr (by simp [h'])

/-- Every id that the first loop of `FindAllDocuments` accumulates has metadata. -/
theorem plus_map_keys (ln : R → R) (s : SearchServer) (hs : s.WF) (ws : List Str)
    (m : List (Int × R)) (hm : ∀ a ∈ m.map Prod.fst, (mapFind a s.documents_).isSome = true) :
    ∀ a ∈ (ws.foldl (FindAllDocuments.plusPure ln s) m).map Prod.fst,
      (mapFind a s.documents_).isSome = true := by
  induction ws generalizing m with
  | nil => exact hm
  | cons w ws ih =>
    rw [List.foldl_cons]
    apply ih
    intro a ha
    unfold FindAllDocuments.plusPure at ha
    cases hw : mapFind w s.word_to_document_freqs_ with
    | none =>
      simp only [hw] at ha
      exact hm a ha
    | some posting =>
      simp only [hw] at ha
      rcases mem_keys_foldl_posting _ a posting m ha with h' | h'
      · exact hm a h'
      · obtain ⟨it, hit, hia⟩ := List.mem_map.mp h'
        rw [← hia]
        exact (hs.index.posting_ids _ (mapFind_mem hw) it hit).2

/-- In a state that satisfies the invariant, `FindAllDocuments` does not throw. -/
theorem FindAllDocuments_total (ln : R → R) (s : SearchServer) (hs : s.WF) (query : Query)
    (key_mapper : KeyMapper) :
    FindAllDocuments ln s query key_mapper =
      .ok ((FindAllDocuments.candidates ln s query).filterMap
        (FindAllDocuments.emitPure s key_mapper)) := by
  apply FindAllDocuments_ok
  intro it hit
  unfold FindAllDocuments.candidates at hit
  rw [mem_foldl_minusPure] at hit
  exact plus_map_keys ln s hs query.plus_words [] (by simp) it.1 (List.mem_map_of_mem _ hit.1)

/-- C5 (amended): in every state reached by calls of `SetStopWords` and `AddDocument`,
`FindAllDocuments` returns, and the relevance of each document `d` it returns is the sum,
over the plus-words that have a posting entry for `d`, of `tf(w, d) * ln(N / df(w))`,
where `df(w)` is the number of documents in the posting of `w` and `N` is the number of
metadata entries (`documents_.size()`); plus-words that are no key of the index
contribute nothing. -/
theorem relevance_formula (ln : R → R) (s : SearchServer) (hs : Reachable s) (query : Query)
    (key_mapper : KeyMapper) :
    ∃ docs, FindAllDocuments ln s query key_mapper = .ok docs ∧
      ∀ doc ∈ docs,
        doc.relevance = relevanceSum ln (s.documents_.length : R) s query doc.id := by
  have hwf := hs.wf
  refine ⟨_, FindAllDocuments_total ln s hwf query key_mapper, ?_⟩
  intro doc hdoc
  rw [List.mem_filterMap] at hdoc
  obtain ⟨it, hit, hemit⟩ := hdoc
  obtain ⟨data, _, _, hdoc_eq⟩ := emitPure_some s key_mapper it doc hemit
  unfold FindAllDocuments.candidates at hit
  rw [mem_foldl_minusPure] at hit
  have hspec := plus_map_spec ln s hwf query it.1
  have hfind := mapFind_of_mem hspec.1 hit.1
  rw [hdoc_eq]
  exact hspec.2 it.2 hfind

end Relevance

/-! ### The corpus size of the relevance formula -/

theorem main_search_server_reachable : Reachable main_search_server :=
  Reachable.addDocument _ _ _ _ _ (Reachable.addDocument _ _ _ _ _
    (Reachable.addDocument _ _ _ _ _ (Reachable.addDocument _ _ _ _ _
      (Reachable.setStopWords _ _ Reachable.empty))))

/-- C5 on the corpus of `main`: the four documents that the query of `main` finds, each
with the relevance of the formula. -/
theorem relevance_formula_witness :
    SearchServer.FindAllDocuments lnQ main_search_server
        (main_search_server.ParseQuery main_query) alwaysTrue =
      .ok [⟨0, 1/4, 2⟩, ⟨1, 7/4, 5⟩, ⟨2, 1/4, -1⟩, ⟨3, 1/3, 9⟩] ∧
    ∀ doc ∈ [(⟨0, 1/4, 2⟩ : Document ℚ), ⟨1, 7/4, 5⟩, ⟨2, 1/4, -1⟩, ⟨3, 1/3, 9⟩],
      doc.relevance =
        SearchServer.relevanceSum lnQ (main_search_server.documents_.length : ℚ)
          main_search_server (main_search_server.ParseQuery main_query) doc.id := by
  have heval : SearchServer.FindAllDocuments lnQ main_search_server
      (main_search_server.ParseQuery main_query) alwaysTrue =
      .ok [⟨0, 1/4, 2⟩, ⟨1, 7/4, 5⟩, ⟨2, 1/4, -1⟩, ⟨3, 1/3, 9⟩] := by decide!
  obtain ⟨docs, hdocs, hrel⟩ := relevance_formula lnQ main_search_server
    main_search_server_reachable (main_search_server.ParseQuery main_query) alwaysTrue
  rw [heval] at hdocs
  cases hdocs
  exact ⟨heval, hrel⟩

theorem dupServer_eq : dupServer =
    { _document_count := 2
      stop_words_ := []
      word_to_document_freqs_ := [(['a'], [(0, 2)])]
      documents_ := [(0, ⟨4, .ACTUAL⟩)] } := by
  decide!

/-- C5 (counterexample): after two calls of `AddDocument` with the same id the counter
of ingested documents is 2 while there is one metadata entry; the relevance that
`FindAllDocuments` computes is `2 * ln (1 / 1) = 0`, not the `2 * ln (2 / 1)` of the
formula with the counter. -/
theorem relevance_counter_counterexample :
    Reachable dupServer ∧ dupServer._document_count = 2 ∧
    ∃ doc, SearchServer.FindAllDocuments Real.log dupServer (dupServer.ParseQuery ['a'])
        alwaysTrue = .ok [doc] ∧
      doc.relevance ≠ SearchServer.relevanceSum Real.log (dupServer._document_count : ℝ)
        dupServer (dupServer.ParseQuery ['a']) doc.id := by
  refine ⟨Reachable.addDocument _ _ _ _ _ (Reachable.addDocument _ _ _ _ _ Reachable.empty),
    by decide, ⟨0, 0, 4⟩, ?_, ?_⟩
  · have hq : dupServer.ParseQuery ['a'] = ⟨[['a']], []⟩ := by decide
    rw [hq, dupServer_eq]
    simp [SearchServer.FindAllDocuments, SearchServer.FindAllDocuments.plusStep,
      SearchServer.FindAllDocuments.minusStep, SearchServer.FindAllDocuments.emitStep,
      SearchServer.ComputeWordInverseDocumentFreq, mapCount, mapFind, mapAt, mapModify,
      alwaysTrue, bind, Except.bind, pure, Except.pure]
  · have hq : dupServer.ParseQuery ['a'] = ⟨[['a']], []⟩ := by decide
    rw [hq, dupServer_eq]
    simp [SearchServer.relevanceSum, SearchServer.relevanceTerm, SearchServer.hasPosting,
      SearchServer.tf, SearchServer.df, mapFind]
    norm_num

/-! ### `MatchDocument` -/

/-- C6 (the code at the failing input): on the server that holds the one document `cat`
under id 0, the query `cat dog` names a plus-word that occurs in no document.  The
specified result for document 0 is the matched word `cat` with the status `ACTUAL`;
`MatchDocument` throws `std::out_of_range` instead, from the `at(word)` of the second
branch of its first loop. -/
theorem MatchDocument_absent_word_throws :
    Reachable catServer ∧
    mapFind 0 catServer.documents_ = some ⟨1, DocumentStatus.ACTUAL⟩ ∧
    catServer.ParseQuery "cat dog".toList = ⟨["cat".toList, "dog".toList], []⟩ ∧
    catServer.matchedWords (catServer.ParseQuery "cat dog".toList) 0 = ["cat".toList] ∧
    SearchServer.MatchDocument catServer "cat dog".toList 0 = .error .out_of_range :=
  ⟨Reachable.addDocument _ _ _ _ _ Reachable.empty, by decide, by decide, by decide, by decide⟩

/-- C7: `MatchDocument` throws when the document id has no metadata entry, and when it
returns, the status it returns is the one stored for the id. -/
theorem MatchDocument_unknown_id (s : SearchServer) (raw_query : Str) (document_id : Int) :
    (mapFind document_id s.documents_ = none →
      SearchServer.MatchDocument s raw_query document_id = .error .out_of_range) ∧
    (∀ words status, SearchServer.MatchDocument s raw_query document_id = .ok (words, status) →
      ∃ data, mapFind document_id s.documents_ = some data ∧ status = data.status) := by
  refine ⟨MatchDocument_error_data s raw_query document_id, ?_⟩
  intro words status h
  rw [MatchDocument_ok_iff] at h
  exact h.2.1

/-- C7 on the corpus of `main`: id 7 was never ingested, id 3 is the banned document. -/
theorem MatchDocument_unknown_id_witness :
    SearchServer.MatchDocument main_search_server main_query 7 = .error .out_of_range ∧
    SearchServer.MatchDocument main_search_server main_query 3 =
      .ok (["ухоженный".toList], DocumentStatus.BANNED) ∧
    ∃ data, mapFind 3 main_search_server.documents_ = some data ∧
      DocumentStatus.BANNED = data.status :=
  ⟨(MatchDocument_unknown_id main_search_server main_query 7).1 (by decide), by decide,
    (MatchDocument_unknown_id main_search_server main_query 3).2 ["ухоженный".toList]
      DocumentStatus.BANNED (by decide)⟩

/-! ### The query parser -/

section Parsing

open SearchServer

theorem ParseQueryWord_minus (s : SearchServer) (rest : Str) :
    s.ParseQueryWord ('-' :: rest) =
      { data := rest, is_minus := true, is_stop := s.IsStopWord rest } := rfl

theorem ParseQueryWord_plus (s : SearchServer) (text : Str) (h : beginsWithMinus text = false) :
    s.ParseQueryWord text = { data := text, is_minus := false, is_stop := s.IsStopWord text } := by
  unfold ParseQueryWord
  split
  · simp [beginsWithMinus] at h
  · rfl

theorem beginsWithMinus_iff (token : Str) :
    beginsWithMinus token = true ↔ ∃ rest, token = '-' :: rest := by
  cases token with
  | nil => simp [beginsWithMinus]
  | cons c cs => simp [beginsWithMinus]

/-- The loop body of `ParseQuery` on a token that begins with `-`. -/
theorem step_minus (s : SearchServer) (query : Query) (rest : Str) :
    ParseQuery.step s query ('-' :: rest) =
      if s.IsStopWord rest then query
      else { query with minus_words := setInsert rest query.minus_words } := by
  unfold ParseQuery.step
  simp only [ParseQueryWord_minus]
  cases s.IsStopWord rest <;> simp

/-- The loop body of `ParseQuery` on a token that does not begin with `-`. -/
theorem step_plus (s : SearchServer) (query : Query) (token : Str)
    (h : beginsWithMinus token = false) :
    ParseQuery.step s query token =
      if s.IsStopWord token then query
      else { query with plus_words := setInsert token query.plus_words } := by
  unfold ParseQuery.step
  simp only [ParseQueryWord_plus s token h]
  cases s.IsStopWord token <;> simp

theorem mem_plus_foldl_step (s : SearchServer) (w : Str) (tokens : List Str) (query : Query) :
    w ∈ (tokens.foldl (ParseQuery.step s) query).plus_words ↔
      w ∈ query.plus_words ∨
        (w ∈ tokens ∧ beginsWithMinus w = false ∧ s.IsStopWord w = false) := by
  induction tokens generalizing query with
  | nil => simp
  | cons t ts ih =>
    rw [List.foldl_cons, ih]
    cases ht : beginsWithMinus t with
    | true =>
      obtain ⟨rest, rfl⟩ := (beginsWithMinus_iff t).mp ht
      have hne : w = '-' :: rest → beginsWithMinus w = false → False := by
        intro h1 h2
        rw [h1, ht] at h2
        exact Bool.noConfusion h2
      rw [step_minus]
      cases s.IsStopWord rest <;> simp only [List.mem_cons] <;> constructor <;> intro h <;> tauto
    | false =>
      rw [step_plus s query t ht]
      cases hst : s.IsStopWord t with
      | true =>
        have hne : w = t → s.IsStopWord w = false → False := by
          intro h1 h2
          rw [h1, hst] at h2
          exact Bool.noConfusion h2
        simp only [List.mem_cons, if_true]
        constructor <;> intro h <;> tauto
      | false =>
        have heq : w = t → beginsWithMinus w = false ∧ s.IsStopWord w = false := by
          intro h1
          rw [h1]
          exact ⟨ht, hst⟩
        simp only [List.mem_cons, Bool.false_eq_true, if_false, mem_setInsert]
        constructor <;> intro h <;> tauto

theorem mem_minus_foldl_step (s : SearchServer) (w : Str) (tokens : List Str) (query : Query) :
    w ∈ (tokens.foldl (ParseQuery.step s) query).minus_words ↔
      w ∈ query.minus_words ∨ (('-' :: w) ∈ tokens ∧ s.IsStopWord w = false) := by
  induction tokens generalizing query with
  | nil => simp
  | cons t ts ih =>
    rw [List.foldl_cons, ih]
    cases ht : beginsWithMinus t with
    | true =>
      obtain ⟨rest, rfl⟩ := (beginsWithMinus_iff t).mp ht
      rw [step_minus]
      cases hst : s.IsStopWord rest with
      | true =>
        have hne : w = rest → s.IsStopWord w = false → False := by
          intro h1 h2
          rw [h1, hst] at h2
          exact Bool.noConfusion h2
        simp only [List.mem_cons, List.cons.injEq, true_and, if_true]
        constructor <;> intro h <;> tauto
      | false =>
        have heq : w = rest → s.IsStopWord w = false := by
          intro h1
          rw [h1]
          exact hst
        simp only [List.mem_cons, List.cons.injEq, true_and, Bool.false_eq_true, if_false,
          mem_setInsert]
        constructor <;> intro h <;> tauto
    | false =>
      have hne : '-' :: w ≠ t := by
        intro h1
        rw [← h1] at ht
        simp [beginsWithMinus] at ht
      rw [step_plus s query t ht]
      cases s.IsStopWord t <;> simp only [List.mem_cons] <;> constructor <;> intro h <;> tauto

theorem foldl_step_wf (s : SearchServer) (tokens : List Str) (query : Query)
    (hp : SetWF query.plus_words) (hm : SetWF query.minus_words) :
    SetWF (tokens.foldl (ParseQuery.step s) query).plus_words ∧
      SetWF (tokens.foldl (ParseQuery.step s) query).minus_words := by
  induction tokens generalizing query with
  | nil => exact ⟨hp, hm⟩
  | cons t ts ih =>
    rw [List.foldl_cons]
    cases ht : beginsWithMinus t with
    | true =>
      obtain ⟨rest, rfl⟩ := (beginsWithMinus_iff t).mp ht
      rw [step_minus]
      cases s.IsStopWord rest with
      | true => exact ih query hp hm
      | false => exact ih _ hp (setInsert_wf _ _ hm)
    | false =>
      rw [step_plus s query t ht]
      cases s.IsStopWord t with
      | true => exact ih query hp hm
      | false => exact ih _ (setInsert_wf _ _ hp) hm

/-- The plus-words of a parsed query. -/
theorem mem_plus_words (s : SearchServer) (text : Str) (w : Str) :
    w ∈ (s.ParseQuery text).plus_words ↔
      w ∈ SplitIntoWords text ∧ beginsWithMinus w = false ∧ s.IsStopWord w = false := by
  unfold ParseQuery
  rw [mem_plus_foldl_step]
  simp

/-- The minus-words of a parsed query. -/
theorem mem_minus_words (s : SearchServer) (text : Str) (w : Str) :
    w ∈ (s.ParseQuery text).minus_words ↔
      ('-' :: w) ∈ SplitIntoWords text ∧ s.IsStopWord w = false := by
  unfold ParseQuery
  rw [mem_minus_foldl_step]
  simp

end Parsing

/-- C8: the plus-words of `ParseQuery` are exactly the tokens of the text that do not
begin with `-` and are not stop words; its minus-words are exactly the remainders, not
stop words, of the tokens that begin with `-` after removal of one leading `-`; both are
sets (strictly ascending lists).  So `--cat` yields the minus-word `-cat`, and a stop word
contributes to neither set, with or without a leading `-`. -/
theorem ParseQuery_reference (s : SearchServer) (text : Str) :
    (∀ w, w ∈ (s.ParseQuery text).plus_words ↔ w ∈ spec_plus_words s text) ∧
    (∀ w, w ∈ (s.ParseQuery text).minus_words ↔ w ∈ spec_minus_words s text) ∧
    SetWF (s.ParseQuery text).plus_words ∧ SetWF (s.ParseQuery text).minus_words ∧
    SearchServer.empty.ParseQuery "--cat".toList = ⟨[], ["-cat".toList]⟩ ∧
    main_search_server.ParseQuery "кот и -в".toList = ⟨["кот".toList], []⟩ := by
  refine ⟨?_, ?_, ?_, ?_, by decide, by decide⟩
  · intro w
    rw [mem_plus_words]
    unfold spec_plus_words
    rw [List.mem_filter]
    simp
  · intro w
    rw [mem_minus_words]
    unfold spec_minus_words
    rw [List.mem_filter, List.mem_map]
    constructor
    · rintro ⟨h1, h2⟩
      refine ⟨⟨'-' :: w, ?_, rfl⟩, by simp [h2]⟩
      rw [List.mem_filter]
      exact ⟨h1, by simp [beginsWithMinus]⟩
    · rintro ⟨⟨t, ht, rfl⟩, h2⟩
      rw [List.mem_filter] at ht
      obtain ⟨rest, rfl⟩ := (beginsWithMinus_iff t).mp ht.2
      exact ⟨ht.1, by simpa using h2⟩
  · exact (foldl_step_wf s (SplitIntoWords text) ⟨[], []⟩ List.Pairwise.nil
      List.Pairwise.nil).1
  · exact (foldl_step_wf s (SplitIntoWords text) ⟨[], []⟩ List.Pairwise.nil
      List.Pairwise.nil).2

/-- In a state that satisfies the invariant, `FindTopDocuments` does not throw. -/
theorem FindTopDocuments_total {R : Type} [LinearOrderedField R] (ln : R → R)
    (s : SearchServer) (hs : s.WF) (raw_query : Str) (key_mapper : KeyMapper) :
    ∃ docs, SearchServer.FindTopDocuments ln s raw_query key_mapper = .ok docs :=
  ⟨_, FindTopDocuments_eq ln s raw_query key_mapper _
    (FindAllDocuments_total ln s hs (s.ParseQuery raw_query) key_mapper)⟩

/-- C9 (counterexample): on the corpus of `main` the query `кот -`, whose second token
is a lone `-`, parses to the plus-word `кот` and the empty minus-word; `FindTopDocuments`
and `MatchDocument` return. -/
theorem lone_minus_counterexample :
    main_search_server.ParseQuery lone_minus_query = ⟨["кот".toList], [[]]⟩ ∧
    (∃ docs, SearchServer.FindTopDocuments Real.log main_search_server lone_minus_query
      alwaysTrue = .ok docs) ∧
    SearchServer.FindTopDocuments lnQ main_search_server lone_minus_query alwaysTrue =
      .ok [⟨1, 1/4, 5⟩, ⟨0, 1/4, 2⟩] ∧
    SearchServer.MatchDocument main_search_server lone_minus_query 0 =
      .ok (["кот".toList], DocumentStatus.ACTUAL) :=
  ⟨by decide,
    FindTopDocuments_total Real.log main_search_server main_search_server_reachable.wf _ _,
    by decide!, by decide⟩

/-- C9 (amended): for a query text with a token that is exactly `-`, `ParseQuery` does
not fail: the empty word is a minus-word of the parsed query unless it is a stop word.
`FindTopDocuments` returns a result in every reachable state, and `MatchDocument`
returns its usual result whenever every plus-word is a key of the index and the document
has metadata. -/
theorem ParseQuery_lone_minus {R : Type} [LinearOrderedField R] (ln : R → R)
    (s : SearchServer) (text : Str) (h : ['-'] ∈ SplitIntoWords text) :
    ([] ∈ (s.ParseQuery text).minus_words ↔ s.IsStopWord [] = false) ∧
    (Reachable s → ∀ key_mapper, ∃ docs,
      SearchServer.FindTopDocuments ln s text key_mapper = .ok docs) ∧
    (∀ document_id data,
      (∀ w ∈ (s.ParseQuery text).plus_words,
        (mapFind w s.word_to_document_freqs_).isSome = true) →
      mapFind document_id s.documents_ = some data →
      SearchServer.MatchDocument s text document_id =
        .ok (s.matchedWords (s.ParseQuery text) document_id, data.status)) := by
  refine ⟨?_, ?_, ?_⟩
  · rw [mem_minus_words]
    exact ⟨fun h' => h'.2, fun h' => ⟨h, h'⟩⟩
  · intro hs key_mapper
    exact FindTopDocuments_total ln s hs.wf text key_mapper
  · intro document_id data hplus hdata
    exact MatchDocument_ok s text document_id data hplus hdata

/-- C9 on the corpus of `main`: the query `кот -` has the token `-`, the empty word
becomes a minus-word, and both entry points return. -/
theorem ParseQuery_lone_minus_witness :
    ['-'] ∈ SplitIntoWords lone_minus_query ∧
    ([] ∈ (main_search_server.ParseQuery lone_minus_query).minus_words ↔
      main_search_server.IsStopWord [] = false) ∧
    (∀ key_mapper, ∃ docs,
      SearchServer.FindTopDocuments lnQ main_search_server lone_minus_query key_mapper =
        .ok docs) ∧
    SearchServer.MatchDocument main_search_server lone_minus_query 0 =
      .ok (main_search_server.matchedWords
        (main_search_server.ParseQuery lone_minus_query) 0, DocumentStatus.ACTUAL) :=
  ⟨by decide,
    (ParseQuery_lone_minus lnQ main_search_server lone_minus_query (by decide)).1,
    (ParseQuery_lone_minus lnQ main_search_server lone_minus_query (by decide)).2.1
      main_search_server_reachable,
    (ParseQuery_lone_minus lnQ main_search_server lone_minus_query (by decide)).2.2 0
      ⟨2, DocumentStatus.ACTUAL⟩ (by decide) (by decide)⟩

/-- C10 (counterexample): a word that the query holds both unprefixed and with a leading
`-` is a plus-word and a minus-word, in whichever order the two tokens come. -/
theorem plus_minus_overlap_counterexample :
    SearchServer.empty.ParseQuery "cat -cat".toList = ⟨["cat".toList], ["cat".toList]⟩ ∧
    SearchServer.empty.ParseQuery "-cat cat".toList = ⟨["cat".toList], ["cat".toList]⟩ :=
  ⟨by decide, by decide⟩

/-- C10 (amended): a word belongs to both `plus_words` and `minus_words` of a parsed query
exactly when it is not a stop word, does not begin with `-`, and occurs in the text both
unprefixed and with a leading `-`; the order of the occurrences plays no part. -/
theorem plus_minus_common (s : SearchServer) (text : Str) (w : Str) :
    (w ∈ (s.ParseQuery text).plus_words ∧ w ∈ (s.ParseQuery text).minus_words) ↔
      (w ∈ SplitIntoWords text ∧ ('-' :: w) ∈ SplitIntoWords text ∧
        beginsWithMinus w = false ∧ s.IsStopWord w = false) := by
  rw [mem_plus_words, mem_minus_words]
  tauto

/-! ### Ingestion -/

section Ingesting

open SearchServer

theorem IndexOK.indexWF {D : Int → Prop} {index : List (Str × List (Int × ℚ))}
    (h : IndexOK D index) : IndexWF index :=
  ⟨h.wf, h.posting_wf⟩

theorem addWordFreq_indexWF (document_id : Int) (inv_word_count : ℚ)
    (index : List (Str × List (Int × ℚ))) (word : Str) (h : IndexWF index) :
    IndexWF (addWordFreq document_id inv_word_count index word) := by
  unfold addWordFreq
  refine ⟨mapModify_wf _ _ _ _ h.wf, ?_⟩
  intro e he
  rcases mem_mapModify e _ _ _ _ he with h' | ⟨_, h' | ⟨v, hv, h'⟩⟩
  · exact h.posting_wf e h'
  · rw [h']
    exact mapModify_wf _ _ _ _ List.Pairwise.nil
  · rw [h']
    exact mapModify_wf _ _ _ _ (h.posting_wf _ hv)

theorem foldl_addWordFreq_indexWF (document_id : Int) (inv_word_count : ℚ)
    (words : List Str) (index : List (Str × List (Int × ℚ))) (h : IndexWF index) :
    IndexWF (words.foldl
      (fun index word =>
        if document_id ≥ 0 then addWordFreq document_id inv_word_count index word
        else index) index) := by
  induction words generalizing index with
  | nil => exact h
  | cons w ws ih =>
    rw [List.foldl_cons]
    apply ih
    by_cases hid : document_id ≥ 0
    · simp only [hid, if_true]
      exact addWordFreq_indexWF _ _ _ _ h
    · simp only [hid, if_false]
      exact h

theorem AddDocument_indexWF (s : SearchServer) (document_id : Int) (document : Str)
    (status : DocumentStatus) (ratings : List Int) (h : IndexWF s.word_to_document_freqs_) :
    IndexWF (s.AddDocument document_id document status ratings).word_to_document_freqs_ :=
  foldl_addWordFreq_indexWF _ _ _ _ h

/-- The posting of a word after `word_to_document_freqs_[word'][id] += inv`. -/
theorem mapFind_addWordFreq (document_id : Int) (inv_word_count : ℚ)
    (index : List (Str × List (Int × ℚ))) (h : IndexWF index) (word' w : Str) :
    mapFind w (addWordFreq document_id inv_word_count index word') =
      if word' = w then
        some (mapModify document_id 0 (fun x => x + inv_word_count)
          ((mapFind w index).getD []))
      else mapFind w index := by
  unfold addWordFreq
  by_cases hw : word' = w
  · subst hw
    rw [mapFind_mapModify_self _ _ _ _ h.wf]
    simp
  · rw [mapFind_mapModify_ne _ _ _ _ _ hw]
    simp [hw]

/-- The posting entry of a word and a document after
`word_to_document_freqs_[word'][id] += inv`. -/
theorem entry_addWordFreq (document_id : Int) (inv_word_count : ℚ)
    (index : List (Str × List (Int × ℚ))) (h : IndexWF index) (word' w : Str) (d : Int) :
    (mapFind w (addWordFreq document_id inv_word_count index word')).bind
        (fun posting => mapFind d posting) =
      if word' = w ∧ document_id = d then
        some ((((mapFind w index).bind (fun posting => mapFind d posting)).getD 0) +
          inv_word_count)
      else (mapFind w index).bind (fun posting => mapFind d posting) := by
  rw [mapFind_addWordFreq _ _ _ h]
  by_cases hw : word' = w
  · simp only [hw, true_and, if_true, Option.some_bind]
    have hp : MapWF ((mapFind w index).getD []) := by
      cases hf : mapFind w index with
      | none => exact List.Pairwise.nil
      | some posting => exact h.posting_wf _ (mapFind_mem hf)
    by_cases hd : document_id = d
    · subst hd
      rw [mapFind_mapModify_self _ _ _ _ hp]
      cases hf : mapFind w index <;> simp [mapFind]
    · rw [mapFind_mapModify_ne _ _ _ _ _ hd]
      cases hf : mapFind w index <;> simp [hd, mapFind]
  · simp [hw]

/-- The posting entry of a word and the ingested document after the loop of
`AddDocument`. -/
theorem entry_foldl_addWordFreq_self (document_id : Int) (inv_word_count : ℚ) (w : Str)
    (words : List Str) (index : List (Str × List (Int × ℚ))) (h : IndexWF index) :
    (mapFind w (words.foldl
        (fun index word => addWordFreq document_id inv_word_count index word) index)).bind
        (fun posting => mapFind document_id posting) =
      if words.count w = 0 then
        (mapFind w index).bind (fun posting => mapFind document_id posting)
      else
        some ((((mapFind w index).bind (fun posting => mapFind document_id posting)).getD 0) +
          (words.count w : ℚ) * inv_word_count) := by
  induction words generalizing index with
  | nil => simp
  | cons word' ws ih =>
    rw [List.foldl_cons, ih _ (addWordFreq_indexWF _ _ _ _ h),
      entry_addWordFreq _ _ _ h, List.count_cons]
    by_cases hw : word' = w
    · subst hw
      simp only [true_and, if_true, beq_self_eq_true, Option.getD_some]
      by_cases hc : List.count word' ws = 0
      · simp [hc]
      · simp only [hc, if_false, Nat.add_eq_zero, one_ne_zero, and_false, Option.some.injEq]
        push_cast
        ring
    · have hb : (word' == w) = false := by simpa using hw
      simp [hw, hb]

/-- The posting entries of the other documents after the loop of `AddDocument`. -/
theorem entry_foldl_addWordFreq_other (document_id : Int) (inv_word_count : ℚ) (w : Str)
    (d : Int) (hd : d ≠ document_id) (words : List Str)
    (index : List (Str × List (Int × ℚ))) (h : IndexWF index) :
    (mapFind w (words.foldl
        (fun index word => addWordFreq document_id inv_word_count index word) index)).bind
        (fun posting => mapFind d posting) =
      (mapFind w index).bind (fun posting => mapFind d posting) := by
  induction words generalizing index with
  | nil => rfl
  | cons word' ws ih =>
    rw [List.foldl_cons, ih _ (addWordFreq_indexWF _ _ _ _ h), entry_addWordFreq _ _ _ h]
    have hne : ¬ document_id = d := fun h' => hd h'.symm
    simp [hne]

theorem tf_eq_postingEntry (s : SearchServer) (w : Str) (d : Int) :
    s.tf w d = (s.postingEntry w d).getD 0 := by
  unfold tf postingEntry
  cases mapFind w s.word_to_document_freqs_ <;> rfl

theorem AddDocument_index_nonneg (s : SearchServer) (document_id : Int) (document : Str)
    (status : DocumentStatus) (ratings : List Int) (hid : 0 ≤ document_id) :
    (s.AddDocument document_id document status ratings).word_to_document_freqs_ =
      (s.SplitIntoWordsNoStop document).foldl
        (fun index word => addWordFreq document_id
          (1 / ((s.SplitIntoWordsNoStop document).length : ℚ)) index word)
        s.word_to_document_freqs_ := by
  unfold AddDocument
  have hid' : document_id ≥ 0 := hid
  simp only [hid', if_true]

theorem AddDocument_index_neg (s : SearchServer) (document_id : Int) (document : Str)
    (status : DocumentStatus) (ratings : List Int) (hid : document_id < 0) :
    (s.AddDocument document_id document status ratings).word_to_document_freqs_ =
      s.word_to_document_freqs_ := by
  unfold AddDocument
  have hid' : ¬ document_id ≥ 0 := not_le.mpr hid
  simp only [hid', if_false]
  generalize s.SplitIntoWordsNoStop document = words
  induction words with
  | nil => rfl
  | cons w ws ih => simp

/-- C12: for a state whose index is a well-formed map of well-formed maps and a call of
`AddDocument` with a non-negative id, with `words` the tokens of the text that are not
stop words: the term frequency of every word `w` for the id after the call is its value
before the call (0 if there was none) plus the number of occurrences of `w` in `words`
over the length of `words`; a word of `words` has a posting entry for the id after the
call; and the posting entry of every word for every other document id is unchanged. -/
theorem additive_posting_update (s : SearchServer) (hs : IndexWF s.word_to_document_freqs_)
    (document_id : Int) (hid : 0 ≤ document_id) (document : Str) (status : DocumentStatus)
    (ratings : List Int) :
    (∀ w, (s.AddDocument document_id document status ratings).tf w document_id =
      s.tf w document_id +
        ((s.SplitIntoWordsNoStop document).count w : ℚ) /
          ((s.SplitIntoWordsNoStop document).length : ℚ)) ∧
    (∀ w ∈ s.SplitIntoWordsNoStop document,
      (s.AddDocument document_id document status ratings).hasPosting w document_id = true) ∧
    (∀ w d, d ≠ document_id →
      (s.AddDocument document_id document status ratings).postingEntry w d =
        s.postingEntry w d) := by
  have hentry : ∀ w, (s.AddDocument document_id document status ratings).postingEntry w
      document_id =
      if (s.SplitIntoWordsNoStop document).count w = 0 then s.postingEntry w document_id
      else some ((s.postingEntry w document_id).getD 0 +
        ((s.SplitIntoWordsNoStop document).count w : ℚ) *
          (1 / ((s.SplitIntoWordsNoStop document).length : ℚ))) := by
    intro w
    unfold postingEntry
    rw [AddDocument_index_nonneg s document_id document status ratings hid]
    exact entry_foldl_addWordFreq_self _ _ w _ _ hs
  refine ⟨?_, ?_, ?_⟩
  · intro w
    rw [tf_eq_postingEntry, tf_eq_postingEntry, hentry]
    by_cases hc : (s.SplitIntoWordsNoStop document).count w = 0
    · simp [hc]
    · simp only [hc, if_false, Option.getD_some]
      ring
  · intro w hw
    have hc : (s.SplitIntoWordsNoStop document).count w ≠ 0 :=
      Nat.pos_iff_ne_zero.mp (List.count_pos_iff.mpr hw)
    have h := hentry w
    simp only [hc, if_false] at h
    unfold postingEntry at h
    unfold hasPosting
    cases hf : mapFind w
        (s.AddDocument document_id document status ratings).word_to_document_freqs_ with
    | none => simp [hf] at h
    | some posting =>
      rw [hf] at h
      simp only [Option.some_bind] at h
      simp [h]
  · intro w d hd
    unfold postingEntry
    rw [AddDocument_index_nonneg s document_id document status ratings hid]
    exact entry_foldl_addWordFreq_other _ _ w d hd _ _ hs

end Ingesting

theorem catServer_reachable : Reachable catServer :=
  Reachable.addDocument _ _ _ _ _ Reachable.empty

/-- C12 on the server that holds the document `cat` under id 0, which is ingested again
with the text `cat cat dog`: the term frequency of `cat` grows from 1 to 1 + 2/3. -/
theorem additive_posting_update_witness :
    catServer.tf "cat".toList 0 = 1 ∧
    (catServer.AddDocument 0 "cat cat dog".toList DocumentStatus.ACTUAL []).tf "cat".toList 0 =
      catServer.tf "cat".toList 0 +
        ((catServer.SplitIntoWordsNoStop "cat cat dog".toList).count "cat".toList : ℚ) /
          ((catServer.SplitIntoWordsNoStop "cat cat dog".toList).length : ℚ) ∧
    (catServer.AddDocument 0 "cat cat dog".toList DocumentStatus.ACTUAL []).tf "cat".toList 0 =
      5 / 3 :=
  ⟨by decide!,
    (additive_posting_update catServer catServer_reachable.wf.index.indexWF 0 (by decide)
      "cat cat dog".toList DocumentStatus.ACTUAL []).1 "cat".toList,
    by decide!⟩

/-! ### Normalization -/

section Normalizing

open SearchServer

theorem getD_mapFind_mapModify (document_id d : Int) (inv_word_count : ℚ)
    (posting : List (Int × ℚ)) (h : MapWF posting) :
    (mapFind d (mapModify document_id 0 (fun x => x + inv_word_count) posting)).getD 0 =
      (mapFind d posting).getD 0 + (if document_id = d then inv_word_count else 0) := by
  by_cases hd : document_id = d
  · subst hd
    rw [mapFind_mapModify_self _ _ _ _ h]
    simp
  · rw [mapFind_mapModify_ne _ _ _ _ _ hd]
    simp [hd]

/-- The sum of the term frequencies of a document after
`word_to_document_freqs_[word][id] += inv`. -/
theorem tfSum_addWordFreq (document_id d : Int) (inv_word_count : ℚ) (word : Str)
    (index : List (Str × List (Int × ℚ))) (h : IndexWF index) :
    ((addWordFreq document_id inv_word_count index word).map
        (fun e => (mapFind d e.2).getD 0)).sum =
      (index.map (fun e => (mapFind d e.2).getD 0)).sum +
        (if document_id = d then inv_word_count else 0) := by
  unfold addWordFreq
  induction index with
  | nil =>
    simp only [mapModify, List.map_cons, List.map_nil, List.sum_cons, List.sum_nil, add_zero,
      zero_add]
    by_cases hd : document_id = d <;> simp [mapFind, hd]
  | cons e es ih =>
    have hes : IndexWF es :=
      ⟨(List.pairwise_cons.mp h.wf).2, fun e' he' => h.posting_wf e' (List.mem_cons_of_mem _ he')⟩
    unfold mapModify
    by_cases h1 : word < e.1
    · simp only [h1, if_true, List.map_cons, List.sum_cons]
      by_cases hd : document_id = d
      · simp [mapModify, mapFind, hd]
        ring
      · simp [mapModify, mapFind, hd]
    · by_cases h2 : word = e.1
      · subst h2
        simp only [lt_irrefl, if_false, if_true, List.map_cons, List.sum_cons]
        rw [getD_mapFind_mapModify _ _ _ _ (h.posting_wf e (List.mem_cons_self _ _))]
        ring
      · simp only [h1, h2, if_false, List.map_cons, List.sum_cons]
        rw [ih hes]
        ring

theorem tfSum_foldl_addWordFreq (document_id d : Int) (inv_word_count : ℚ)
    (words : List Str) (index : List (Str × List (Int × ℚ))) (h : IndexWF index) :
    ((words.foldl (fun index word => addWordFreq document_id inv_word_count index word)
        index).map (fun e => (mapFind d e.2).getD 0)).sum =
      (index.map (fun e => (mapFind d e.2).getD 0)).sum +
        (if document_id = d then (words.length : ℚ) * inv_word_count else 0) := by
  induction words generalizing index with
  | nil => simp
  | cons w ws ih =>
    rw [List.foldl_cons, ih _ (addWordFreq_indexWF _ _ _ _ h), tfSum_addWordFreq _ _ _ _ _ h]
    by_cases hd : document_id = d
    · simp only [hd, if_true, List.length_cons]
      push_cast
      ring
    · simp [hd]

/-- The sum of the term frequencies of a document after a call of `AddDocument`: it grows
by 1 when the call ingests a non-empty list of words under the id of the document, and
stays as it is otherwise. -/
theorem tfSum_AddDocument (s : SearchServer) (hs : IndexWF s.word_to_document_freqs_)
    (document_id : Int) (document : Str) (status : DocumentStatus) (ratings : List Int)
    (d : Int) :
    (s.AddDocument document_id document status ratings).tfSum d =
      s.tfSum d +
        (if 0 ≤ document_id ∧ document_id = d ∧ s.SplitIntoWordsNoStop document ≠ [] then 1
          else 0) := by
  unfold tfSum
  by_cases hid : 0 ≤ document_id
  · rw [AddDocument_index_nonneg s document_id document status ratings hid,
      tfSum_foldl_addWordFreq _ _ _ _ _ hs]
    by_cases hd : document_id = d
    · by_cases hw : s.SplitIntoWordsNoStop document = []
      · simp [hid, hd, hw]
      · have hlen : ((s.SplitIntoWordsNoStop document).length : ℚ) ≠ 0 := by
          simpa using hw
        subst hd
        rw [if_pos rfl, mul_one_div_cancel hlen]
        simp [hid, hw]
    · simp [hd]
  · rw [AddDocument_index_neg s document_id document status ratings (not_le.mp hid)]
    simp [hid]

theorem runCalls_stop_words (s : SearchServer) (calls : List Ingestion) :
    (runCalls s calls).stop_words_ = s.stop_words_ := by
  unfold runCalls
  induction calls generalizing s with
  | nil => rfl
  | cons c cs ih =>
    rw [List.foldl_cons, ih]
    rfl

theorem SplitIntoWordsNoStop_congr (s s' : SearchServer) (h : s'.stop_words_ = s.stop_words_)
    (text : Str) : s'.SplitIntoWordsNoStop text = s.SplitIntoWordsNoStop text := by
  unfold SplitIntoWordsNoStop IsStopWord
  rw [h]

/-- The sum of the term frequencies of a document after a sequence of calls with
pairwise distinct ids. -/
theorem tfSum_runCalls (calls : List Ingestion) (s : SearchServer)
    (hs : IndexWF s.word_to_document_freqs_)
    (hdistinct : (calls.map (fun c => c.document_id)).Nodup) (d : Int) :
    (runCalls s calls).tfSum d =
      s.tfSum d +
        (if ∃ c ∈ calls, 0 ≤ c.document_id ∧ c.document_id = d ∧
            s.SplitIntoWordsNoStop c.document ≠ [] then 1 else 0) := by
  induction calls generalizing s with
  | nil => simp [runCalls]
  | cons c cs ih =>
    rw [List.map_cons, List.nodup_cons] at hdistinct
    have hstep := tfSum_AddDocument s hs c.document_id c.document c.status c.ratings d
    have hs' := AddDocument_indexWF s c.document_id c.document c.status c.ratings hs
    have hcongr : ∀ text,
        (s.AddDocument c.document_id c.document c.status c.ratings).SplitIntoWordsNoStop text =
          s.SplitIntoWordsNoStop text :=
      fun text => SplitIntoWordsNoStop_congr s _ rfl text
    have hrun : runCalls s (c :: cs) =
        runCalls (s.AddDocument c.document_id c.document c.status c.ratings) cs := rfl
    rw [hrun, ih _ hs' hdistinct.2, hstep]
    simp only [hcongr, List.mem_cons, exists_eq_or_imp]
    by_cases hc : 0 ≤ c.document_id ∧ c.document_id = d ∧ s.SplitIntoWordsNoStop c.document ≠ []
    · have hno : ¬ ∃ c' ∈ cs, 0 ≤ c'.document_id ∧ c'.document_id = d ∧
          s.SplitIntoWordsNoStop c'.document ≠ [] := by
        rintro ⟨c', hc', _, hd', _⟩
        apply hdistinct.1
        rw [hc.2.1, ← hd']
        exact List.mem_map_of_mem _ hc'
      simp [hc, hno]
    · simp [hc]

end Normalizing

/-- C11: start from a server with an empty index (and any stop words) and run a sequence
of calls of `AddDocument` whose ids are pairwise distinct and non-negative.  Then for
every call of the sequence whose text holds at least one word that is not a stop word,
the term frequencies recorded for its document, summed over all words of the index, give
exactly 1. -/
theorem normalization (s : SearchServer) (hempty : s.word_to_document_freqs_ = [])
    (calls : List Ingestion) (hdistinct : (calls.map (fun c => c.document_id)).Nodup)
    (hnonneg : ∀ c ∈ calls, 0 ≤ c.document_id) (c : Ingestion) (hc : c ∈ calls)
    (hwords : s.SplitIntoWordsNoStop c.document ≠ []) :
    (runCalls s calls).tfSum c.document_id = 1 := by
  have hs : IndexWF s.word_to_document_freqs_ := by
    rw [hempty]
    exact ⟨List.Pairwise.nil, by simp⟩
  rw [tfSum_runCalls calls s hs hdistinct]
  have hex : ∃ c' ∈ calls, 0 ≤ c'.document_id ∧ c'.document_id = c.document_id ∧
      s.SplitIntoWordsNoStop c'.document ≠ [] := ⟨c, hc, hnonneg c hc, rfl, hwords⟩
  simp [hex, SearchServer.tfSum, hempty]

/-- C11 on the corpus of `main`: the first document, whose text holds a stop word. -/
theorem normalization_witness :
    runCalls (SearchServer.empty.SetStopWords "и в на".toList) main_calls = main_search_server ∧
    main_search_server.tfSum 0 = 1 :=
  ⟨rfl,
    normalization (SearchServer.empty.SetStopWords "и в на".toList) rfl main_calls
      (by decide) (by decide)
      ⟨0, "белый кот и модный ошейник".toList, DocumentStatus.ACTUAL, [8, -3]⟩
      (by decide) (by decide)⟩

/-! ### Metadata -/

theorem mapFind_mapEmplace_ne {K V : Type} [LinearOrder K] (k k' : K) (v : V)
    (m : List (K × V)) (hne : k ≠ k') : mapFind k' (mapEmplace k v m) = mapFind k' m := by
  induction m with
  | nil => simp [mapEmplace, mapFind, hne]
  | cons e es ih =>
    unfold mapEmplace
    by_cases h1 : k < e.1
    · simp only [h1, if_true]
      rw [mapFind]
      simp [hne]
    · by_cases h2 : k = e.1
      · subst h2
        simp
      · simp only [h1, h2, if_false]
        rw [mapFind, ih, mapFind]

theorem mapFind_mapEmplace_self {K V : Type} [LinearOrder K] (k : K) (v : V)
    (m : List (K × V)) (h : MapWF m) :
    mapFind k (mapEmplace k v m) = some ((mapFind k m).getD v) := by
  unfold MapWF at h
  induction m with
  | nil => simp [mapEmplace, mapFind]
  | cons e es ih =>
    rw [List.pairwise_cons] at h
    unfold mapEmplace
    by_cases h1 : k < e.1
    · have hne : e.1 ≠ k := ne_of_gt h1
      have hnone : mapFind k es = none := by
        rw [mapFind_eq_none_iff]
        intro hk
        obtain ⟨b, hb, hbk⟩ := List.mem_map.mp hk
        have := h.1 b hb
        rw [hbk] at this
        exact absurd (lt_trans h1 this) (lt_irrefl _)
      simp [h1, mapFind, hne, hnone]
    · by_cases h2 : k = e.1
      · subst h2
        simp [mapFind]
      · have hne : e.1 ≠ k := Ne.symm h2
        simp only [h1, h2, if_false]
        rw [mapFind, mapFind]
        simp only [hne, if_false]
        exact ih h.2

/-- C13 (counterexample): after `AddDocument(0, "a", ACTUAL, {4})` and then
`AddDocument(0, "a", BANNED, {9})` the metadata of id 0 is still that of the first
call. -/
theorem reingest_metadata_counterexample :
    Reachable reingestServer ∧
    mapFind 0 reingestServer.documents_ = some ⟨4, DocumentStatus.ACTUAL⟩ ∧
    mapFind 0 reingestServer.documents_ ≠
      some ⟨SearchServer.ComputeAverageRating [9], DocumentStatus.BANNED⟩ :=
  ⟨Reachable.addDocument _ _ _ _ _ (Reachable.addDocument _ _ _ _ _ Reachable.empty),
    by decide, by decide⟩

/-- C13 (amended): after a call of `AddDocument` the metadata stored for the id is the
average rating of this call's ratings and this call's status when the id had no metadata
before the call, and the entry it had before the call otherwise (`emplace` does not
overwrite); the metadata of every other id is unchanged. -/
theorem metadata_after_AddDocument (s : SearchServer) (hs : MapWF s.documents_)
    (document_id : Int) (document : Str) (status : DocumentStatus) (ratings : List Int) :
    mapFind document_id (s.AddDocument document_id document status ratings).documents_ =
      some ((mapFind document_id s.documents_).getD
        { rating := SearchServer.ComputeAverageRating ratings, status := status }) ∧
    ∀ d, d ≠ document_id →
      mapFind d (s.AddDocument document_id document status ratings).documents_ =
        mapFind d s.documents_ :=
  ⟨mapFind_mapEmplace_self _ _ _ hs,
    fun _ hd => mapFind_mapEmplace_ne _ _ _ _ (fun h => hd h.symm)⟩

/-- C13 on the server with the document `cat` under id 0: a call with the fresh id 1
stores its own metadata, a call with id 0 keeps the entry of the first call. -/
theorem metadata_after_AddDocument_witness :
    mapFind 1 (catServer.AddDocument 1 "dog".toList DocumentStatus.BANNED [9, 4]).documents_ =
      some ⟨6, DocumentStatus.BANNED⟩ ∧
    mapFind 0 (catServer.AddDocument 0 "dog".toList DocumentStatus.BANNED [9, 4]).documents_ =
      some ⟨1, DocumentStatus.ACTUAL⟩ :=
  ⟨(metadata_after_AddDocument catServer catServer_reachable.wf.documents 1 "dog".toList
      DocumentStatus.BANNED [9, 4]).1,
    (metadata_after_AddDocument catServer catServer_reachable.wf.documents 0 "dog".toList
      DocumentStatus.BANNED [9, 4]).1⟩

/-! ### The average rating -/

theorem wrap32_add (x y : Int) : wrap32 (wrap32 x + y) = wrap32 (x + y) := by
  unfold wrap32
  omega

theorem wrap32_of_int32 (x : Int) (hlo : -2147483648 ≤ x) (hhi : x < 2147483648) :
    wrap32 x = x := by
  unfold wrap32
  omega

/-- Adding up in 32-bit arithmetic gives the exact sum reduced to 32 bits. -/
theorem foldl_wrap32 (ratings : List Int) (a : Int) :
    ratings.foldl (fun acc r => wrap32 (acc + r)) (wrap32 a) = wrap32 (a + ratings.sum) := by
  induction ratings generalizing a with
  | nil => simp
  | cons r rs ih =>
    rw [List.foldl_cons, wrap32_add, ih, List.sum_cons, add_assoc]

theorem ComputeAverageRating_eq (ratings : List Int) (h : ratings ≠ []) :
    SearchServer.ComputeAverageRating ratings =
      Int.tdiv (wrap32 ratings.sum) (ratings.length : Int) := by
  unfold SearchServer.ComputeAverageRating
  have he : ratings.isEmpty = false := by
    cases ratings with
    | nil => exact absurd rfl h
    | cons r rs => rfl
  have h0 : (0 : Int) = wrap32 0 := by decide
  simp only [he, Bool.false_eq_true, if_false]
  rw [h0, foldl_wrap32, zero_add]

/-- The sum of the ratings as the `int` arithmetic of `accumulate` delivers it lies in the
range of a 32-bit `int` and differs from the exact sum by a multiple of `2 ^ 32`. -/
theorem wrap32_sum_spec (x : Int) :
    -2147483648 ≤ wrap32 x ∧ wrap32 x < 2147483648 ∧
      ∃ k : Int, wrap32 x = x + k * 4294967296 := by
  refine ⟨?_, ?_, -((x + 2147483648) / 4294967296), ?_⟩ <;> unfold wrap32 <;> omega

/-- C14: `ComputeAverageRating` returns 0 for an empty list.  For a non-empty list it
returns the quotient, truncated toward zero, of `S` by the count `n` of the ratings,
where `S` is the sum of the ratings in 32-bit signed arithmetic: the one integer of the
range `-2 ^ 31 ≤ S < 2 ^ 31` that differs from the exact sum by a multiple of `2 ^ 32`.
Truncated toward zero means `S / n` rounded down when `S ≥ 0` and the negative of
`(-S) / n` rounded down when `S ≤ 0`.  So `{8, -3}` gives 2 and `{5, -12, 2, 1}` gives -1;
`{-3, 0}` gives -1 where flooring would give -2; and the sums of `{2147483647, 1}` and
`{-2147483648, -1}` leave the 32-bit range, the first becoming `-2 ^ 31` with the average
-1073741824 and the second `2 ^ 31 - 1` with the average 1073741823. -/
theorem ComputeAverageRating_truncates :
    SearchServer.ComputeAverageRating [] = 0 ∧
    (∀ ratings : List Int, ratings ≠ [] →
      ∃ S : Int, -2147483648 ≤ S ∧ S < 2147483648 ∧
        (∃ k : Int, S = ratings.sum + k * 4294967296) ∧
        (0 ≤ S → SearchServer.ComputeAverageRating ratings = S / (ratings.length : Int)) ∧
        (S ≤ 0 → SearchServer.ComputeAverageRating ratings = -((-S) / (ratings.length : Int)))) ∧
    (∀ ratings : List Int, ratings ≠ [] →
      -2147483648 ≤ ratings.sum → ratings.sum < 2147483648 →
      (0 ≤ ratings.sum →
        SearchServer.ComputeAverageRating ratings = ratings.sum / (ratings.length : Int)) ∧
      (ratings.sum ≤ 0 →
        SearchServer.ComputeAverageRating ratings =
          -((-ratings.sum) / (ratings.length : Int)))) ∧
    SearchServer.ComputeAverageRating [8, -3] = 2 ∧
    SearchServer.ComputeAverageRating [5, -12, 2, 1] = -1 ∧
    (SearchServer.ComputeAverageRating [-3, 0] = -1 ∧ (-3 : Int) / 2 = -2) ∧
    SearchServer.ComputeAverageRating [2147483647, 1] = -1073741824 ∧
    SearchServer.ComputeAverageRating [-2147483648, -1] = 1073741823 := by
  have htrunc : ∀ ratings : List Int, ratings ≠ [] →
      (0 ≤ wrap32 ratings.sum →
        SearchServer.ComputeAverageRating ratings = wrap32 ratings.sum / (ratings.length : Int)) ∧
      (wrap32 ratings.sum ≤ 0 →
        SearchServer.ComputeAverageRating ratings =
          -((-wrap32 ratings.sum) / (ratings.length : Int))) := by
    intro ratings h
    rw [ComputeAverageRating_eq ratings h]
    constructor
    · intro hs
      exact Int.tdiv_eq_ediv hs (Int.ofNat_nonneg _)
    · intro hs
      have hneg : 0 ≤ -wrap32 ratings.sum := by omega
      rw [← Int.tdiv_eq_ediv hneg (Int.ofNat_nonneg _), Int.neg_tdiv, neg_neg]
  refine ⟨rfl, ?_, ?_, by decide, by decide, ⟨by decide, by decide⟩, by decide, by decide⟩
  · intro ratings h
    obtain ⟨hlo, hhi, hk⟩ := wrap32_sum_spec ratings.sum
    exact ⟨wrap32 ratings.sum, hlo, hhi, hk, htrunc ratings h⟩
  · intro ratings h hlo hhi
    have := htrunc ratings h
    rw [wrap32_of_int32 _ hlo hhi] at this
    exact this

/-- C14 on a rating list whose sum leaves the 32-bit range, `{2147483647, 1}`: the sum in
32-bit arithmetic is `-2 ^ 31`, the exact sum less `2 ^ 32`, and the average is its half;
and on the rating list of the third document of `main`, whose sum -4 stays in range. -/
theorem ComputeAverageRating_truncates_witness :
    (∃ S : Int, -2147483648 ≤ S ∧ S < 2147483648 ∧
      (∃ k : Int, S = ([2147483647, 1] : List Int).sum + k * 4294967296) ∧
      (0 ≤ S → SearchServer.ComputeAverageRating [2147483647, 1] =
        S / (([2147483647, 1] : List Int).length : Int)) ∧
      (S ≤ 0 → SearchServer.ComputeAverageRating [2147483647, 1] =
        -((-S) / (([2147483647, 1] : List Int).length : Int)))) ∧
    SearchServer.ComputeAverageRating [2147483647, 1] = -1073741824 ∧
    SearchServer.ComputeAverageRating [5, -12, 2, 1] =
      -((-([5, -12, 2, 1] : List Int).sum) / (([5, -12, 2, 1] : List Int).length : Int)) :=
  ⟨ComputeAverageRating_truncates.2.1 [2147483647, 1] (by decide),
    by decide,
    (ComputeAverageRating_truncates.2.2.1 [5, -12, 2, 1] (by decide) (by decide)
      (by decide)).2 (by decide)⟩

/-! ### Negative document ids -/

section NegativeIds

open SearchServer

variable {R : Type} [LinearOrderedField R]

/-- A property of all the ids of the postings holds for every id that the first loop of
`FindAllDocuments` accumulates. -/
theorem plus_map_keys_of (P : Int → Prop) (ln : R → R) (s : SearchServer)
    (hP : ∀ e ∈ s.word_to_document_freqs_, ∀ it ∈ e.2, P it.1) (ws : List Str)
    (m : List (Int × R)) (hm : ∀ a ∈ m.map Prod.fst, P a) :
    ∀ a ∈ (ws.foldl (FindAllDocuments.plusPure ln s) m).map Prod.fst, P a := by
  induction ws generalizing m with
  | nil => exact hm
  | cons w ws ih =>
    rw [List.foldl_cons]
    apply ih
    intro a ha
    unfold FindAllDocuments.plusPure at ha
    cases hw : mapFind w s.word_to_document_freqs_ with
    | none =>
      simp only [hw] at ha
      exact hm a ha
    | some posting =>
      simp only [hw] at ha
      rcases mem_keys_foldl_posting _ a posting m ha with h' | h'
      · exact hm a h'
      · obtain ⟨it, hit, hia⟩ := List.mem_map.mp h'
        rw [← hia]
        exact hP _ (mapFind_mem hw) it hit

/-- A property of all the ids of the postings holds for the id of every document that
`FindTopDocuments` returns. -/
theorem FindTopDocuments_ids_of (P : Int → Prop) (ln : R → R) (s : SearchServer)
    (hP : ∀ e ∈ s.word_to_document_freqs_, ∀ it ∈ e.2, P it.1) (raw_query : Str)
    (key_mapper : KeyMapper) (docs : List (Document R))
    (h : FindTopDocuments ln s raw_query key_mapper = .ok docs) :
    ∀ doc ∈ docs, P doc.id := by
  intro doc hdoc
  obtain ⟨cands, hall, _, hsub⟩ := FindTopDocuments_subset ln s raw_query key_mapper docs h
  obtain ⟨it, hit, hemit⟩ := FindAllDocuments_mem ln s _ key_mapper cands hall doc
    (hsub doc hdoc)
  obtain ⟨data, _, _, hdoc_eq⟩ := emitPure_some s key_mapper it doc hemit
  unfold FindAllDocuments.candidates at hit
  rw [mem_foldl_minusPure] at hit
  rw [hdoc_eq]
  exact plus_map_keys_of P ln s hP _ [] (by simp) it.1 (List.mem_map_of_mem _ hit.1)

/-- C15: a call of `AddDocument` with a negative id leaves the inverted index as it is,
increments the counter of ingested documents, and leaves a metadata entry for the id;
and in every reachable state no document that `FindTopDocuments` returns has a negative
id. -/
theorem negative_id_not_indexed (ln : R → R) :
    (∀ (s : SearchServer) (document_id : Int) (document : Str) (status : DocumentStatus)
        (ratings : List Int), document_id < 0 →
      (s.AddDocument document_id document status ratings).word_to_document_freqs_ =
        s.word_to_document_freqs_ ∧
      (s.AddDocument document_id document status ratings)._document_count =
        s._document_count + 1 ∧
      (mapFind document_id
        (s.AddDocument document_id document status ratings).documents_).isSome = true) ∧
    (∀ (s : SearchServer) (raw_query : Str) (key_mapper : KeyMapper) (docs : List (Document R)),
      Reachable s → FindTopDocuments ln s raw_query key_mapper = .ok docs →
      ∀ doc ∈ docs, 0 ≤ doc.id) := by
  constructor
  · intro s document_id document status ratings hid
    refine ⟨AddDocument_index_neg s document_id document status ratings hid, rfl, ?_⟩
    rw [mapFind_isSome_iff]
    exact (mem_keys_mapEmplace _ _ _ _).mpr (Or.inl rfl)
  · intro s raw_query key_mapper docs hs h
    exact FindTopDocuments_ids_of (fun id => 0 ≤ id) ln s
      (fun e he it hit => (hs.wf.index.posting_ids e he it hit).1) raw_query key_mapper docs h

end NegativeIds

/-- C15 on the server with the document `cat`: the text `cat` ingested under id -1 leaves
the index alone, and the query `cat` still returns document 0 only. -/
theorem negative_id_not_indexed_witness :
    (catServer.AddDocument (-1) "cat".toList DocumentStatus.ACTUAL [5]).word_to_document_freqs_ =
      catServer.word_to_document_freqs_ ∧
    (catServer.AddDocument (-1) "cat".toList DocumentStatus.ACTUAL [5])._document_count =
      catServer._document_count + 1 ∧
    (mapFind (-1)
      (catServer.AddDocument (-1) "cat".toList DocumentStatus.ACTUAL [5]).documents_).isSome =
        true ∧
    SearchServer.FindTopDocuments lnQ
      (catServer.AddDocument (-1) "cat".toList DocumentStatus.ACTUAL [5]) "cat".toList
      alwaysTrue = .ok [⟨0, 1, 1⟩] ∧
    ∀ doc ∈ [(⟨0, 1, 1⟩ : Document ℚ)], 0 ≤ doc.id :=
  ⟨((negative_id_not_indexed lnQ).1 catServer (-1) "cat".toList DocumentStatus.ACTUAL [5]
      (by decide)).1,
    ((negative_id_not_indexed lnQ).1 catServer (-1) "cat".toList DocumentStatus.ACTUAL [5]
      (by decide)).2.1,
    ((negative_id_not_indexed lnQ).1 catServer (-1) "cat".toList DocumentStatus.ACTUAL [5]
      (by decide)).2.2,
    by decide!,
    (negative_id_not_indexed lnQ).2
      (catServer.AddDocument (-1) "cat".toList DocumentStatus.ACTUAL [5]) "cat".toList
      alwaysTrue [⟨0, 1, 1⟩] (Reachable.addDocument _ _ _ _ _ catServer_reachable) (by decide!)⟩

/-! ### The tokenizer -/

theorem intercalate_cons_of_ne_nil (sep x : Str) (l : List Str) (h : l ≠ []) :
    List.intercalate sep (x :: l) = x ++ sep ++ List.intercalate sep l := by
  cases l with
  | nil => exact absurd rfl h
  | cons y l => simp [List.intercalate, List.intersperse]

theorem intercalate_append_char (sep : Str) (ws : List Str) (w : Str) (c : Char) :
    List.intercalate sep (ws ++ [w ++ [c]]) = List.intercalate sep (ws ++ [w]) ++ [c] := by
  induction ws with
  | nil => simp [List.intercalate, List.intersperse]
  | cons x ws ih =>
    rw [List.cons_append, List.cons_append, intercalate_cons_of_ne_nil _ _ _ (by simp),
      intercalate_cons_of_ne_nil _ _ _ (by simp), ih]
    simp

theorem intercalate_append_empty (sep : Str) (ws : List Str) (w : Str) :
    List.intercalate sep (ws ++ [w] ++ [[]]) = List.intercalate sep (ws ++ [w]) ++ sep := by
  induction ws with
  | nil => simp [List.intercalate, List.intersperse]
  | cons x ws ih =>
    simp only [List.cons_append]
    rw [intercalate_cons_of_ne_nil _ _ _ (by simp), intercalate_cons_of_ne_nil _ _ _ (by simp), ih]
    simp

/-- The invariant of the loop of `SplitIntoWords`. -/
theorem loop_spec (cs : List Char) (words : List Str) (word : Str) :
    List.intercalate [' ']
        ((SplitIntoWords.loop cs words word).1 ++ [(SplitIntoWords.loop cs words word).2]) =
      List.intercalate [' '] (words ++ [word]) ++ cs ∧
    ((SplitIntoWords.loop cs words word).1 ++ [(SplitIntoWords.loop cs words word).2]).length =
      words.length + 1 + cs.count ' ' ∧
    ((∀ t ∈ words ++ [word], ' ' ∉ t) →
      ∀ t ∈ (SplitIntoWords.loop cs words word).1 ++ [(SplitIntoWords.loop cs words word).2],
        ' ' ∉ t) := by
  induction cs generalizing words word with
  | nil => simp [SplitIntoWords.loop]
  | cons c cs ih =>
    unfold SplitIntoWords.loop
    by_cases hc : c = ' '
    · subst hc
      simp only [if_true]
      obtain ⟨h1, h2, h3⟩ := ih (words ++ [word]) []
      refine ⟨?_, ?_, ?_⟩
      · rw [h1, intercalate_append_empty]
        simp
      · rw [h2]
        simp
        omega
      · intro hall
        apply h3
        intro t ht
        rw [List.mem_append, List.mem_singleton] at ht
        rcases ht with ht | rfl
        · exact hall t ht
        · simp
    · simp only [hc, if_false]
      obtain ⟨h1, h2, h3⟩ := ih words (word ++ [c])
      refine ⟨?_, ?_, ?_⟩
      · rw [h1, intercalate_append_char]
        simp
      · rw [h2, List.count_cons_of_ne (Ne.symm hc)]
      · intro hall
        apply h3
        intro t ht
        rw [List.mem_append, List.mem_singleton] at ht
        rcases ht with ht | rfl
        · exact hall t (List.mem_append_left _ ht)
        · have hw := hall word (by simp)
          simp only [List.mem_append, List.mem_singleton, not_or]
          exact ⟨hw, fun h => hc h.symm⟩

/-- C16: the tokens of `SplitIntoWords` hold no space, there is one more of them than
there are spaces in the text, and joined with single spaces they give back the text.  So
consecutive, leading and trailing spaces give empty tokens, and tabs and newlines stay
inside the tokens. -/
theorem SplitIntoWords_contract (text : Str) :
    (∀ token ∈ SplitIntoWords text, ' ' ∉ token) ∧
    (SplitIntoWords text).length = text.count ' ' + 1 ∧
    List.intercalate [' '] (SplitIntoWords text) = text ∧
    SplitIntoWords " a  b ".toList = [[], ['a'], [], ['b'], []] ∧
    SplitIntoWords ['a', '\t', 'b', '\n', 'c', ' ', 'd'] = [['a', '\t', 'b', '\n', 'c'], ['d']] := by
  obtain ⟨h1, h2, h3⟩ := loop_spec text [] []
  refine ⟨?_, ?_, ?_, by decide, by decide⟩
  · exact h3 (by simp)
  · unfold SplitIntoWords
    rw [h2]
    simp
    omega
  · unfold SplitIntoWords
    rw [h1]
    simp [List.intercalate, List.intersperse]

/-! ### The scenario of `main` -/

theorem main_search_server_eq : main_search_server =
    { _document_count := 4
      stop_words_ := ["в".toList, "и".toList, "на".toList]
      word_to_document_freqs_ :=
        [("белый".toList, [(0, 1/4)]),
         ("выразительные".toList, [(2, 1/4)]),
         ("глаза".toList, [(2, 1/4)]),
         ("евгений".toList, [(3, 1/3)]),
         ("кот".toList, [(0, 1/4), (1, 1/4)]),
         ("модный".toList, [(0, 1/4)]),
         ("ошейник".toList, [(0, 1/4)]),
         ("пушистый".toList, [(1, 1/2)]),
         ("пёс".toList, [(2, 1/4)]),
         ("скворец".toList, [(3, 1/3)]),
         ("ухоженный".toList, [(2, 1/4), (3, 1/3)]),
         ("хвост".toList, [(1, 1/4)])]
      documents_ := [(0, ⟨2, .ACTUAL⟩), (1, ⟨5, .ACTUAL⟩), (2, ⟨-1, .ACTUAL⟩),
        (3, ⟨9, .BANNED⟩)] } := by
  decide!

theorem main_query_parsed : main_search_server.ParseQuery main_query =
    ⟨["кот".toList, "пушистый".toList, "ухоженный".toList], []⟩ := by
  decide

theorem log_four : Real.log 4 = 2 * Real.log 2 := by
  have h : (4 : ℝ) = 2 ^ 2 := by norm_num
  rw [h, Real.log_pow]
  norm_num

theorem main_findAll (key_mapper : KeyMapper) :
    SearchServer.FindAllDocuments Real.log main_search_server
        (main_search_server.ParseQuery main_query) key_mapper =
      .ok (([⟨0, 1 / 4 * Real.log 2, 2⟩, ⟨1, 5 / 4 * Real.log 2, 5⟩,
        ⟨2, 1 / 4 * Real.log 2, -1⟩, ⟨3, 1 / 3 * Real.log 2, 9⟩] : List (Document ℝ)).filter
          (main_search_server.passes key_mapper)) := by
  rw [FindAllDocuments_total Real.log main_search_server main_search_server_reachable.wf,
    filterMap_emitPure]
  congr 2
  have h := FindAllDocuments_total Real.log main_search_server main_search_server_reachable.wf
    (main_search_server.ParseQuery main_query) alwaysTrue
  have h2 : SearchServer.FindAllDocuments Real.log main_search_server
      (main_search_server.ParseQuery main_query) alwaysTrue =
      .ok [⟨0, 1 / 4 * Real.log 2, 2⟩, ⟨1, 5 / 4 * Real.log 2, 5⟩,
        ⟨2, 1 / 4 * Real.log 2, -1⟩, ⟨3, 1 / 3 * Real.log 2, 9⟩] := by
    rw [main_query_parsed, main_search_server_eq]
    simp [SearchServer.FindAllDocuments, SearchServer.FindAllDocuments.plusStep,
      SearchServer.FindAllDocuments.minusStep, SearchServer.FindAllDocuments.emitStep,
      SearchServer.ComputeWordInverseDocumentFreq, mapCount, mapFind, mapAt, mapModify,
      alwaysTrue, bind, Except.bind, pure, Except.pure]
    have e : (4 : ℝ) / 2 = 2 := by norm_num
    rw [e, log_four]
    exact ⟨rfl, by ring, rfl⟩
  rw [h] at h2
  exact Except.ok.inj h2

theorem main_findTop (key_mapper : KeyMapper) :
    SearchServer.FindTopDocuments Real.log main_search_server main_query key_mapper =
      .ok (SearchServer.FindTopDocuments.truncate (sort SearchServer.FindTopDocuments.comp
        (([⟨0, 1 / 4 * Real.log 2, 2⟩, ⟨1, 5 / 4 * Real.log 2, 5⟩,
          ⟨2, 1 / 4 * Real.log 2, -1⟩, ⟨3, 1 / 3 * Real.log 2, 9⟩] : List (Document ℝ)).filter
            (main_search_server.passes key_mapper)))) :=
  FindTopDocuments_eq _ _ _ _ _ (main_findAll key_mapper)

theorem main_comp_1_0 : SearchServer.FindTopDocuments.comp
    (⟨1, 5 / 4 * Real.log 2, 5⟩ : Document ℝ) ⟨0, 1 / 4 * Real.log 2, 2⟩ = true := by
  have hlo := Real.log_two_gt_d9
  rw [comp_eq_true_iff]
  right
  unfold SearchServer.FindTopDocuments.tied SearchServer.EPSILON
  simp only [not_lt, gt_iff_lt]
  constructor
  · rw [le_abs]
    left
    norm_num at hlo ⊢
    linarith
  · norm_num at hlo ⊢
    linarith

theorem main_comp_2_1 : SearchServer.FindTopDocuments.comp
    (⟨2, 1 / 4 * Real.log 2, -1⟩ : Document ℝ) ⟨1, 5 / 4 * Real.log 2, 5⟩ = false := by
  have hlo := Real.log_two_gt_d9
  rw [comp_eq_false_iff]
  right
  unfold SearchServer.FindTopDocuments.tied SearchServer.EPSILON
  simp only [not_lt]
  constructor
  · rw [le_abs]
    right
    norm_num at hlo ⊢
    linarith
  · norm_num at hlo ⊢
    linarith

theorem main_comp_2_0 : SearchServer.FindTopDocuments.comp
    (⟨2, 1 / 4 * Real.log 2, -1⟩ : Document ℝ) ⟨0, 1 / 4 * Real.log 2, 2⟩ = false := by
  rw [comp_eq_false_iff]
  left
  unfold SearchServer.FindTopDocuments.tied SearchServer.EPSILON
  simp

theorem main_passes (key_mapper : KeyMapper) (id : Int) (r : ℝ) (rating : Int) :
    main_search_server.passes key_mapper (⟨id, r, rating⟩ : Document ℝ) =
      match mapFind id main_search_server.documents_ with
      | some data => key_mapper id data.status rating
      | none => false := rfl

theorem truncate_of_le {R : Type} (l : List (Document R)) (h : l.length ≤ 5) :
    SearchServer.FindTopDocuments.truncate l = l := by
  unfold SearchServer.FindTopDocuments.truncate MAX_RESULT_DOCUMENT_COUNT
  rw [if_neg (by omega)]

theorem sort_three {α : Type} (comp : α → α → Bool) (a b c : α) (hba : comp b a = true)
    (hcb : comp c b = false) (hca : comp c a = false) : sort comp [a, b, c] = [b, a, c] := by
  simp [sort, insertionStep, linearInsert, hba, hcb, hca]

theorem sort_two {α : Type} (comp : α → α → Bool) (a c : α) (hca : comp c a = false) :
    sort comp [a, c] = [a, c] := by
  simp [sort, insertionStep, linearInsert, hca]

/-- C17: on the corpus of `main`, with the real logarithm, the query of `main` returns
documents 1, 0, 2 in this order under the default filter (document 1 ranked above
document 2, document 3 absent), document 3 alone for the status `BANNED`, and documents
0 and 2 for the predicate of the even ids. -/
theorem main_scenario :
    SearchServer.FindTopDocumentsDefault Real.log main_search_server main_query =
      .ok [⟨1, 5 / 4 * Real.log 2, 5⟩, ⟨0, 1 / 4 * Real.log 2, 2⟩,
        ⟨2, 1 / 4 * Real.log 2, -1⟩] ∧
    SearchServer.FindTopDocumentsByStatus Real.log main_search_server main_query
        DocumentStatus.BANNED = .ok [⟨3, 1 / 3 * Real.log 2, 9⟩] ∧
    SearchServer.FindTopDocuments Real.log main_search_server main_query main_even_ids =
      .ok [⟨0, 1 / 4 * Real.log 2, 2⟩, ⟨2, 1 / 4 * Real.log 2, -1⟩] := by
  have hdocs : main_search_server.documents_ =
      [(0, ⟨2, .ACTUAL⟩), (1, ⟨5, .ACTUAL⟩), (2, ⟨-1, .ACTUAL⟩), (3, ⟨9, .BANNED⟩)] := by
    rw [main_search_server_eq]
  have hactual : ([⟨0, 1 / 4 * Real.log 2, 2⟩, ⟨1, 5 / 4 * Real.log 2, 5⟩,
      ⟨2, 1 / 4 * Real.log 2, -1⟩, ⟨3, 1 / 3 * Real.log 2, 9⟩] : List (Document ℝ)).filter
      (main_search_server.passes (fun _ status _ => decide (status = DocumentStatus.ACTUAL))) =
      [⟨0, 1 / 4 * Real.log 2, 2⟩, ⟨1, 5 / 4 * Real.log 2, 5⟩, ⟨2, 1 / 4 * Real.log 2, -1⟩] := by
    simp [main_passes, hdocs, mapFind]
  have hbanned : ([⟨0, 1 / 4 * Real.log 2, 2⟩, ⟨1, 5 / 4 * Real.log 2, 5⟩,
      ⟨2, 1 / 4 * Real.log 2, -1⟩, ⟨3, 1 / 3 * Real.log 2, 9⟩] : List (Document ℝ)).filter
      (main_search_server.passes (fun _ status _ => decide (status = DocumentStatus.BANNED))) =
      [⟨3, 1 / 3 * Real.log 2, 9⟩] := by
    simp [main_passes, hdocs, mapFind]
  have heven : ([⟨0, 1 / 4 * Real.log 2, 2⟩, ⟨1, 5 / 4 * Real.log 2, 5⟩,
      ⟨2, 1 / 4 * Real.log 2, -1⟩, ⟨3, 1 / 3 * Real.log 2, 9⟩] : List (Document ℝ)).filter
      (main_search_server.passes main_even_ids) =
      [⟨0, 1 / 4 * Real.log 2, 2⟩, ⟨2, 1 / 4 * Real.log 2, -1⟩] := by
    have t0 : Int.tmod 0 2 = 0 := by decide
    have t1 : Int.tmod 1 2 = 1 := by decide
    have t2 : Int.tmod 2 2 = 0 := by decide
    have t3 : Int.tmod 3 2 = 1 := by decide
    simp [main_passes, hdocs, mapFind, main_even_ids, t0, t1, t2, t3]
  refine ⟨?_, ?_, ?_⟩
  · unfold SearchServer.FindTopDocumentsDefault
    rw [main_findTop, hactual, sort_three _ _ _ _ main_comp_1_0 main_comp_2_1 main_comp_2_0,
      truncate_of_le _ (by simp)]
  · unfold SearchServer.FindTopDocumentsByStatus
    rw [main_findTop, hbanned, truncate_of_le _ (by simp [sort_length])]
    rfl
  · rw [main_findTop, heven, sort_two _ _ _ main_comp_2_0, truncate_of_le _ (by simp)]

/-! ### The overloads of `FindTopDocuments` -/

/-- C18: `FindTopDocuments` with a status is `FindTopDocuments` with the predicate that
compares the stored status with it, and `FindTopDocuments` without a second argument is
`FindTopDocuments` with the status `ACTUAL`; so every document returned for a status has
that status stored. -/
theorem overload_equivalence {R : Type} [LinearOrderedField R] (ln : R → R)
    (s : SearchServer) (raw_query : Str) (status : DocumentStatus) :
    SearchServer.FindTopDocumentsByStatus ln s raw_query status =
      SearchServer.FindTopDocuments ln s raw_query (fun _ st _ => decide (st = status)) ∧
    SearchServer.FindTopDocumentsDefault ln s raw_query =
      SearchServer.FindTopDocumentsByStatus ln s raw_query DocumentStatus.ACTUAL ∧
    (∀ docs, SearchServer.FindTopDocumentsByStatus ln s raw_query status = .ok docs →
      ∀ doc ∈ docs, ∃ data, mapFind doc.id s.documents_ = some data ∧ data.status = status) := by
  refine ⟨rfl, rfl, ?_⟩
  intro docs h doc hdoc
  unfold SearchServer.FindTopDocumentsByStatus at h
  obtain ⟨cands, hall, _, hsub⟩ := FindTopDocuments_subset ln s raw_query _ docs h
  obtain ⟨it, _, hemit⟩ := FindAllDocuments_mem ln s _ _ cands hall doc (hsub doc hdoc)
  obtain ⟨data, hdata, hkey, hdoc_eq⟩ := emitPure_some s _ it doc hemit
  refine ⟨data, ?_, by simpa using hkey⟩
  rw [hdoc_eq]
  exact hdata

/-- C18 on the corpus of `main`: the only document returned for `BANNED` is document 3,
whose stored status is `BANNED`. -/
theorem overload_equivalence_witness :
    SearchServer.FindTopDocumentsByStatus lnQ main_search_server main_query
      DocumentStatus.BANNED = .ok [⟨3, 1/3, 9⟩] ∧
    ∀ doc ∈ [(⟨3, 1/3, 9⟩ : Document ℚ)],
      ∃ data, mapFind doc.id main_search_server.documents_ = some data ∧
        data.status = DocumentStatus.BANNED :=
  ⟨by decide!,
    (overload_equivalence lnQ main_search_server main_query DocumentStatus.BANNED).2.2
      [⟨3, 1/3, 9⟩] (by decide!)⟩

/-! ### When `MatchDocument` returns -/

/-- C19: `MatchDocument` returns a result exactly when every plus-word of the parsed
query is a key of the inverted index and the document id has a metadata entry.  For a
plus-word that is no key of the index the round of the first loop throws
`std::out_of_range`, and so does the call; in a reachable state these are the plus-words
that occur in no indexed document. -/
theorem MatchDocument_returns_iff (s : SearchServer) (raw_query : Str) (document_id : Int) :
    ((∃ result, SearchServer.MatchDocument s raw_query document_id = .ok result) ↔
      (∀ w ∈ (s.ParseQuery raw_query).plus_words, mapCount s.word_to_document_freqs_ w ≠ 0) ∧
        mapCount s.documents_ document_id ≠ 0) ∧
    (∀ acc w, mapCount s.word_to_document_freqs_ w = 0 →
      SearchServer.MatchDocument.plusStep s document_id acc w = .error .out_of_range) ∧
    (∀ w ∈ (s.ParseQuery raw_query).plus_words, mapCount s.word_to_document_freqs_ w = 0 →
      SearchServer.MatchDocument s raw_query document_id = .error .out_of_range) ∧
    (Reachable s → ∀ w, (∀ d, s.hasPosting w d = false) →
      mapCount s.word_to_document_freqs_ w = 0) := by
  refine ⟨?_, ?_, ?_, ?_⟩
  · constructor
    · rintro ⟨⟨words, status⟩, h⟩
      rw [MatchDocument_ok_iff] at h
      obtain ⟨hplus, ⟨data, hdata, _⟩, _⟩ := h
      refine ⟨fun w hw => (mapCount_ne_zero_iff _ _).mpr (hplus w hw), ?_⟩
      rw [mapCount_ne_zero_iff, hdata]
      rfl
    · rintro ⟨hplus, hdata⟩
      rw [mapCount_ne_zero_iff] at hdata
      obtain ⟨data, hdata⟩ := Option.isSome_iff_exists.mp hdata
      exact ⟨_, MatchDocument_ok s raw_query document_id data
        (fun w hw => (mapCount_ne_zero_iff _ _).mp (hplus w hw)) hdata⟩
  · intro acc w hw
    rw [mapCount_eq_zero_iff] at hw
    rw [match_plusStep_eq, hw]
  · intro w hw hcount
    rw [mapCount_eq_zero_iff] at hcount
    exact MatchDocument_error_plus s raw_query document_id ⟨w, hw, hcount⟩
  · intro hs w hw
    rw [mapCount_eq_zero_iff]
    cases hf : mapFind w s.word_to_document_freqs_ with
    | none => rfl
    | some posting =>
      exfalso
      have hne := hs.wf.index.posting_ne _ (mapFind_mem hf)
      cases posting with
      | nil => exact hne rfl
      | cons it rest =>
        have h := hw it.1
        unfold SearchServer.hasPosting at h
        rw [hf] at h
        simp [mapFind] at h

/-- C19 on the server with the document `cat`: the query `cat` returns, the query
`cat dog` throws. -/
theorem MatchDocument_returns_iff_witness :
    (∃ result, SearchServer.MatchDocument catServer "cat".toList 0 = .ok result) ∧
    SearchServer.MatchDocument catServer "cat dog".toList 0 = .error .out_of_range ∧
    mapCount catServer.word_to_document_freqs_ "dog".toList = 0 :=
  ⟨(MatchDocument_returns_iff catServer "cat".toList 0).1.mpr ⟨by decide, by decide⟩,
    (MatchDocument_returns_iff catServer "cat dog".toList 0).2.2.1 "dog".toList (by decide)
      (by decide),
    (MatchDocument_returns_iff catServer "cat dog".toList 0).2.2.2 catServer_reachable
      "dog".toList (fun _ => rfl)⟩

/-! ### The invariant of the index and its consequences -/

section Invariant

open SearchServer

variable {R : Type} [LinearOrderedField R]

theorem addWordFreq_nonneg (document_id : Int) (inv_word_count : ℚ) (hinv : 0 ≤ inv_word_count)
    (index : List (Str × List (Int × ℚ))) (word : Str)
    (h : ∀ e ∈ index, ∀ it ∈ e.2, 0 ≤ it.2) :
    ∀ e ∈ addWordFreq document_id inv_word_count index word, ∀ it ∈ e.2, 0 ≤ it.2 := by
  have hnew : ∀ posting : List (Int × ℚ), (∀ it ∈ posting, 0 ≤ it.2) →
      ∀ it ∈ mapModify document_id 0 (fun x => x + inv_word_count) posting, 0 ≤ it.2 := by
    intro posting hp it hit
    rcases mem_mapModify it _ _ _ _ hit with h' | ⟨_, h' | ⟨v, hv, h'⟩⟩
    · exact hp it h'
    · rw [h']
      simpa using hinv
    · rw [h']
      exact add_nonneg (hp _ hv) hinv
  intro e he
  unfold addWordFreq at he
  rcases mem_mapModify e _ _ _ _ he with h' | ⟨_, h' | ⟨v, hv, h'⟩⟩
  · exact h e h'
  · rw [h']
    exact hnew [] (by simp)
  · rw [h']
    exact hnew v (h _ hv)

theorem AddDocument_nonneg (s : SearchServer) (document_id : Int) (document : Str)
    (status : DocumentStatus) (ratings : List Int)
    (h : ∀ e ∈ s.word_to_document_freqs_, ∀ it ∈ e.2, 0 ≤ it.2) :
    ∀ e ∈ (s.AddDocument document_id document status ratings).word_to_document_freqs_,
      ∀ it ∈ e.2, 0 ≤ it.2 := by
  unfold AddDocument
  simp only
  have hinv : (0 : ℚ) ≤ 1 / ((s.SplitIntoWordsNoStop document).length : ℚ) := by positivity
  generalize (1 : ℚ) / ((s.SplitIntoWordsNoStop document).length : ℚ) = inv at hinv
  generalize s.word_to_document_freqs_ = index at h
  induction s.SplitIntoWordsNoStop document generalizing index with
  | nil => exact h
  | cons w ws ih =>
    rw [List.foldl_cons]
    apply ih
    by_cases hid : document_id ≥ 0
    · simp only [hid, if_true]
      exact addWordFreq_nonneg _ _ hinv _ _ h
    · simp only [hid, if_false]
      exact h

/-- In a reachable state no term frequency is negative. -/
theorem Reachable.tf_nonneg {s : SearchServer} (h : Reachable s) :
    ∀ e ∈ s.word_to_document_freqs_, ∀ it ∈ e.2, 0 ≤ it.2 := by
  induction h with
  | empty => simp [SearchServer.empty]
  | setStopWords s text _ ih => exact ih
  | addDocument s document_id document status ratings _ ih =>
    exact AddDocument_nonneg s document_id document status ratings ih

/-- No posting has more documents than there are metadata entries. -/
theorem posting_length_le (s : SearchServer) (hs : s.WF) (e : Str × List (Int × ℚ))
    (he : e ∈ s.word_to_document_freqs_) : e.2.length ≤ s.documents_.length := by
  have hnodup : (e.2.map Prod.fst).Nodup := by
    have hp := hs.index.posting_wf e he
    unfold MapWF at hp
    unfold List.Nodup
    rw [List.pairwise_map]
    exact hp.imp (fun h => ne_of_lt h)
  have hsub : e.2.map Prod.fst ⊆ s.documents_.map Prod.fst := by
    intro a ha
    obtain ⟨it, hit, hia⟩ := List.mem_map.mp ha
    rw [← hia, ← mapFind_isSome_iff]
    exact (hs.index.posting_ids e he it hit).2
  have := (List.subperm_of_subset hnodup hsub).length_le
  simpa using this

theorem tf_nonneg_of (s : SearchServer)
    (h : ∀ e ∈ s.word_to_document_freqs_, ∀ it ∈ e.2, 0 ≤ it.2) (w : Str) (d : Int) :
    0 ≤ s.tf w d := by
  unfold tf
  cases hf : mapFind w s.word_to_document_freqs_ with
  | none => exact le_refl _
  | some posting =>
    simp only
    cases hd : mapFind d posting with
    | none => exact le_refl _
    | some v => exact h _ (mapFind_mem hf) _ (mapFind_mem hd)

/-- In a reachable state the relevance formula has no negative term, for a logarithm
that is not negative from 1 on. -/
theorem relevanceSum_nonneg (ln : R → R) (hln : ∀ x, 1 ≤ x → 0 ≤ ln x) (s : SearchServer)
    (hs : Reachable s) (query : Query) (d : Int) :
    0 ≤ relevanceSum ln (s.documents_.length : R) s query d := by
  unfold relevanceSum
  apply List.sum_nonneg
  intro x hx
  obtain ⟨w, hw, rfl⟩ := List.mem_map.mp hx
  rw [List.mem_filter] at hw
  have hposting := hw.2
  unfold hasPosting at hposting
  unfold relevanceTerm
  apply mul_nonneg
  · exact_mod_cast tf_nonneg_of s hs.tf_nonneg w d
  · apply hln
    unfold df
    cases hf : mapFind w s.word_to_document_freqs_ with
    | none => simp [hf] at hposting
    | some posting =>
      simp only
      have hne := hs.wf.index.posting_ne _ (mapFind_mem hf)
      have hle := posting_length_le s hs.wf _ (mapFind_mem hf)
      have hpos : (0 : R) < (posting.length : R) := by
        have : 0 < posting.length := List.length_pos.mpr hne
        exact_mod_cast this
      rw [one_le_div hpos]
      exact_mod_cast hle

/-- C20: in every state reachable from a fresh server by calls of `SetStopWords` and
`AddDocument`, every posting of the inverted index is non-empty and every document id in
a posting is non-negative and has a metadata entry.  So the number of documents of a
posting, the divisor of the IDF, is not zero and not more than the number of metadata
entries; `FindAllDocuments` and `FindTopDocuments` return for every query and filter;
and, for a logarithm that is not negative from 1 on, as the natural logarithm is, no
returned relevance is negative. -/
theorem index_invariant (ln : R → R) (hln : ∀ x, 1 ≤ x → 0 ≤ ln x) (s : SearchServer)
    (hs : Reachable s) :
    (∀ e ∈ s.word_to_document_freqs_,
      e.2 ≠ [] ∧ ∀ it ∈ e.2, 0 ≤ it.1 ∧ mapCount s.documents_ it.1 ≠ 0) ∧
    (∀ e ∈ s.word_to_document_freqs_, 0 < e.2.length ∧ e.2.length ≤ s.documents_.length) ∧
    (∀ query key_mapper, ∃ docs, FindAllDocuments ln s query key_mapper = .ok docs) ∧
    (∀ raw_query key_mapper, ∃ docs,
      FindTopDocuments ln s raw_query key_mapper = .ok docs ∧
        ∀ doc ∈ docs, 0 ≤ doc.relevance) := by
  have hwf := hs.wf
  refine ⟨?_, ?_, ?_, ?_⟩
  · intro e he
    refine ⟨hwf.index.posting_ne e he, fun it hit => ?_⟩
    have h := hwf.index.posting_ids e he it hit
    exact ⟨h.1, (mapCount_ne_zero_iff _ _).mpr h.2⟩
  · intro e he
    exact ⟨List.length_pos.mpr (hwf.index.posting_ne e he), posting_length_le s hwf e he⟩
  · intro query key_mapper
    exact ⟨_, FindAllDocuments_total ln s hwf query key_mapper⟩
  · intro raw_query key_mapper
    obtain ⟨docs, hdocs⟩ := FindTopDocuments_total ln s hwf raw_query key_mapper
    refine ⟨docs, hdocs, ?_⟩
    intro doc hdoc
    obtain ⟨cands, hall, _, hsub⟩ := FindTopDocuments_subset ln s raw_query key_mapper docs hdocs
    obtain ⟨it, hit, hemit⟩ := FindAllDocuments_mem ln s _ key_mapper cands hall doc
      (hsub doc hdoc)
    obtain ⟨data, _, _, hdoc_eq⟩ := emitPure_some s key_mapper it doc hemit
    unfold FindAllDocuments.candidates at hit
    rw [mem_foldl_minusPure] at hit
    have hspec := plus_map_spec ln s hwf (s.ParseQuery raw_query) it.1
    have hfind := mapFind_of_mem hspec.1 hit.1
    rw [hdoc_eq, hspec.2 it.2 hfind]
    exact relevanceSum_nonneg ln hln s hs _ _

end Invariant

/-- C20 on the corpus of `main`, with the real logarithm. -/
theorem index_invariant_witness :
    (∀ e ∈ main_search_server.word_to_document_freqs_,
      e.2 ≠ [] ∧ ∀ it ∈ e.2, 0 ≤ it.1 ∧ mapCount main_search_server.documents_ it.1 ≠ 0) ∧
    (∀ e ∈ main_search_server.word_to_document_freqs_,
      0 < e.2.length ∧ e.2.length ≤ main_search_server.documents_.length) ∧
    (∀ query key_mapper, ∃ docs,
      SearchServer.FindAllDocuments Real.log main_search_server query key_mapper = .ok docs) ∧
    (∀ raw_query key_mapper, ∃ docs,
      SearchServer.FindTopDocuments Real.log main_search_server raw_query key_mapper = .ok docs ∧
        ∀ doc ∈ docs, 0 ≤ doc.relevance) :=
  index_invariant Real.log (fun _ hx => Real.log_nonneg hx) main_search_server
    main_search_server_reachable

end SearchQueries
